import Mathlib

/-!
# Metagen bytecode backend: shallow embedding and verification

This development embeds the bytecode backend of the metagen compiler:

* the bytecode assembler and AST lowering of src/codegen/bytecode/gen.h
  (write_instruction, writew, writeq, patchw, patchi, get_var_slot,
  func_register_start, func_get_start, ast_expr_to_bytecode,
  ast_stmt_to_bytecode, ast_func_to_bytecode, ast_call_to_bytecode,
  ast_root_to_bytecode);
* the stack virtual machine of src/codegen/bytecode/vm.c (run);
* the compile-time driver loop of main.c (compile).

Modelling conventions, stated once here:

* `BytecodeWord` (s64) values are carried as their unsigned 64-bit pattern
  (a `Nat` below 2^64); `wordToInt` recovers the signed value.  Arithmetic
  wraps modulo 2^64, matching two's-complement s64.
* The code stream is a list of bytes; words and quarters are stored
  little-endian exactly as on the reference x86-64 host.
* The VM stack is word-granular: the C machine stores words at byte
  offsets through raw pointers, and every offset the code generator emits
  is a multiple of 8, so a byte offset o addresses word slot o / 8.  The
  stack is modelled as a total function from word slot to word (the spec
  allows a "fixed or growable" stack); unwritten slots read as 0 where the
  C machine would read indeterminate bytes.
* The C machine pushes the return pc as an absolute host pointer; since
  the code base address is fixed for a run, the model stores the
  code-relative byte offset instead.
* Reading a byte past the emitted code, or popping below the stack base,
  is undefined behaviour in the C program; the model makes the former
  stop the machine (`run` returns none) and floors the latter at 0.
* LOG_FATAL followed by exit(1) in the code generator is modelled as an
  `Except.error`; C functions whose source is absent from the repository
  snapshot are modelled from the spec and say so in their doc comment.
-/

namespace Metagen

/-! ## Words and quarters -/

/-- 2^64, the modulus of `BytecodeWord` (s64) arithmetic. -/
def wordMod : Nat := 18446744073709551616

/-- 2^16, the modulus of `BytecodeQuarter` (s16) immediates. -/
def quarterMod : Nat := 65536

/-- Signed value of a 64-bit pattern (two's complement). -/
def wordToInt (w : Nat) : Int :=
  if w < 9223372036854775808 then (w : Int) else (w : Int) - (wordMod : Int)

/-- 64-bit pattern of an integer (two's complement wraparound). -/
def intToWord (i : Int) : Nat := (i % (wordMod : Int)).toNat

/-- Signed value of a 16-bit pattern (two's complement). -/
def quarterToInt (q : Nat) : Int :=
  if q < 32768 then (q : Int) else (q : Int) - (quarterMod : Int)

/-- 16-bit pattern of an integer (two's complement wraparound). -/
def intToQuarter (i : Int) : Nat := (i % (quarterMod : Int)).toNat

/-- `a + b` on s64 words (vm.c OP_ADD). -/
def add64 (a b : Nat) : Nat := (a + b) % wordMod

/-- `a - b` on s64 words (vm.c OP_SUB). -/
def sub64 (a b : Nat) : Nat := intToWord ((a : Int) - (b : Int))

/-- `a * b` on s64 words (vm.c OP_MUL). -/
def mul64 (a b : Nat) : Nat := (a * b) % wordMod

/-- `a / b` on s64 words: C signed division truncates toward zero
(vm.c OP_DIV).  Division by zero is undefined behaviour in C; the model
inherits the Lean convention `Int.tdiv x 0 = 0`. -/
def div64 (a b : Nat) : Nat := intToWord (Int.tdiv (wordToInt a) (wordToInt b))

/-- `a << b` on s64 words (vm.c OP_LSHIFT).  A shift count outside
[0, 64) is undefined behaviour in C; the model returns 0 there. -/
def lshift64 (a b : Nat) : Nat := if b < 64 then (a * 2 ^ b) % wordMod else 0

/-- `a >> b` on s64 words: arithmetic shift of the signed value, which is
how the reference compiler (gcc) implements signed `>>` (vm.c OP_RSHIFT).
A shift count outside [0, 64) is undefined behaviour in C; the model
returns 0 there. -/
def rshift64 (a b : Nat) : Nat :=
  if b < 64 then intToWord (Int.fdiv (wordToInt a) (2 ^ b)) else 0

/-- Signed `a > b`, pushed as 1 or 0 (vm.c OP_GE; strict, see spec section 9). -/
def gt64 (a b : Nat) : Nat := if wordToInt b < wordToInt a then 1 else 0

/-- Signed `a < b`, pushed as 1 or 0 (vm.c OP_LE; strict, see spec section 9). -/
def lt64 (a b : Nat) : Nat := if wordToInt a < wordToInt b then 1 else 0

/-- `!a` (vm.c OP_NOT). -/
def not64 (a : Nat) : Nat := if a = 0 then 1 else 0

/-! ## Byte-stream encoding -/

/-- Little-endian bytes of a word pattern (writew / patchw store
`*(BytecodeWord *)p = v`). -/
def encodeWord (v : Nat) : List Nat :=
  [v % 256, v / 256 % 256, v / 65536 % 256, v / 16777216 % 256,
   v / 4294967296 % 256, v / 1099511627776 % 256,
   v / 281474976710656 % 256, v / 72057594037927936 % 256]

/-- Little-endian bytes of a quarter pattern (writeq / patchi). -/
def encodeQuarter (v : Nat) : List Nat := [v % 256, v / 256 % 256]

/-- Byte of the code stream at offset `p`, defaulting to 0 (reading past
the emitted code is undefined behaviour in C). -/
def byteAt (code : List Nat) (p : Nat) : Nat := code.getD p 0

/-- The word stored little-endian at byte offset `p` (nextw / patch reads). -/
def readWordAt (code : List Nat) (p : Nat) : Nat :=
  byteAt code p + 256 * (byteAt code (p + 1) + 256 * (byteAt code (p + 2) +
    256 * (byteAt code (p + 3) + 256 * (byteAt code (p + 4) +
    256 * (byteAt code (p + 5) + 256 * (byteAt code (p + 6) +
    256 * byteAt code (p + 7)))))))

/-- The quarter stored little-endian at byte offset `p` (nextq). -/
def readQuarterAt (code : List Nat) (p : Nat) : Nat :=
  byteAt code p + 256 * byteAt code (p + 1)

/-- Overwrite the bytes starting at `off` with `bs` (leaving the rest).
Writing past the end of the emitted stream is a no-op in the model (the C
program would write into buffer slack never read back). -/
def patchBytes (code : List Nat) (off : Nat) : List Nat → List Nat
  | [] => code
  | b :: bs => patchBytes (code.set off b) (off + 1) bs

/-- `patchw`: overwrite the word at byte offset `off`. -/
def patchWord (code : List Nat) (off : Nat) (v : Nat) : List Nat :=
  patchBytes code off (encodeWord (v % wordMod))

/-- `patchi`: overwrite the quarter at byte offset `off`. -/
def patchQuarter (code : List Nat) (off : Nat) (v : Nat) : List Nat :=
  patchBytes code off (encodeQuarter (v % quarterMod))

/-! ## Opcodes

The current codegen/bytecode/bytecode.h is not part of the snapshot; the
numbering is fixed by the parallel `op_code_str_map` initializer in
src/codegen/bytecode/gen.h, which lists the opcode names in enum order. -/

def opADD : Nat := 0
def opSUB : Nat := 1
def opMUL : Nat := 2
def opDIV : Nat := 3
def opLSHIFT : Nat := 4
def opRSHIFT : Nat := 5
def opGE : Nat := 6
def opLE : Nat := 7
def opNOT : Nat := 8
def opJMP : Nat := 9
def opBIZ : Nat := 10
def opBNZ : Nat := 11
def opLI : Nat := 12
def opPUSHN : Nat := 13
def opPOPN : Nat := 14
def opLDBP : Nat := 15
def opSTBP : Nat := 16
def opLDA : Nat := 17
def opSTA : Nat := 18
def opLDI : Nat := 19
def opSTI : Nat := 20
def opPRINT : Nat := 21
def opCALL : Nat := 22
def opFUNCPRO : Nat := 23
def opRET : Nat := 24
def opEXIT : Nat := 25
def opNOP : Nat := 26

/-! ## The stack virtual machine (vm.c) -/

/-- VM state: program counter (byte offset into the code), word-granular
stack with sp and bp as byte offsets from the stack base, and the text the
machine has written to stdout. -/
structure VMState where
  code : List Nat
  pc : Nat
  stack : Nat → Nat
  sp : Nat
  bp : Nat
  output : String

/-- `ldw`: load the word at byte offset `off` (word slot off / 8). -/
def ldw (stack : Nat → Nat) (off : Nat) : Nat := stack (off / 8)

/-- `stw`: store a word at byte offset `off`. -/
def stw (stack : Nat → Nat) (off v : Nat) : Nat → Nat :=
  fun i => if i = off / 8 then v % wordMod else stack i

/-- The words popped by `PRINT n`, in the order they were pushed
(deepest first): the C code pops into args[0..n) and prints args[n-1]
down to args[0]. -/
def printArgs (s : VMState) (n : Nat) : List Nat :=
  (List.range n).map fun i => ldw s.stack (s.sp - 8 * (n - i))

/-- `printf("%ld ", w)` for each word, then `printf("\n")` — note that
every word, the last included, is followed by one space. -/
def renderPrint (ws : List Nat) : String :=
  (ws.foldl (fun acc w => acc ++ toString (wordToInt w) ++ " ") "") ++ "\n"

/-- Result of one dispatch round of the vm.c fetch-decode-execute loop. -/
inductive StepRes where
  | next (s : VMState)
  | done (w : Nat) (s : VMState)
  | stuck

/-- One iteration of the `while (1)` loop in vm.c run: fetch the opcode
byte at pc, dispatch, and either continue, or leave the loop.  Leaving the
loop — on EXIT, and equally on an unknown opcode after printing
"Unknown opcode N" — returns `popw(&vm)`, the word on top of the stack.
Fetching past the emitted code is undefined behaviour in C and is
modelled as `stuck`. -/
def step (s : VMState) : StepRes :=
  match s.code.get? s.pc with
  | none => .stuck
  | some op =>
    let pc := s.pc + 1
    if op = opADD then
      let a := ldw s.stack (s.sp - 8)
      let b := ldw s.stack (s.sp - 16)
      .next { s with pc, sp := s.sp - 8, stack := stw s.stack (s.sp - 16) (add64 a b) }
    else if op = opSUB then
      let a := ldw s.stack (s.sp - 8)
      let b := ldw s.stack (s.sp - 16)
      .next { s with pc, sp := s.sp - 8, stack := stw s.stack (s.sp - 16) (sub64 a b) }
    else if op = opMUL then
      let a := ldw s.stack (s.sp - 8)
      let b := ldw s.stack (s.sp - 16)
      .next { s with pc, sp := s.sp - 8, stack := stw s.stack (s.sp - 16) (mul64 a b) }
    else if op = opDIV then
      let a := ldw s.stack (s.sp - 8)
      let b := ldw s.stack (s.sp - 16)
      .next { s with pc, sp := s.sp - 8, stack := stw s.stack (s.sp - 16) (div64 a b) }
    else if op = opLSHIFT then
      let a := ldw s.stack (s.sp - 8)
      let b := ldw s.stack (s.sp - 16)
      .next { s with pc, sp := s.sp - 8, stack := stw s.stack (s.sp - 16) (lshift64 a b) }
    else if op = opRSHIFT then
      let a := ldw s.stack (s.sp - 8)
      let b := ldw s.stack (s.sp - 16)
      .next { s with pc, sp := s.sp - 8, stack := stw s.stack (s.sp - 16) (rshift64 a b) }
    else if op = opGE then
      let a := ldw s.stack (s.sp - 8)
      let b := ldw s.stack (s.sp - 16)
      .next { s with pc, sp := s.sp - 8, stack := stw s.stack (s.sp - 16) (gt64 a b) }
    else if op = opLE then
      let a := ldw s.stack (s.sp - 8)
      let b := ldw s.stack (s.sp - 16)
      .next { s with pc, sp := s.sp - 8, stack := stw s.stack (s.sp - 16) (lt64 a b) }
    else if op = opNOT then
      let a := ldw s.stack (s.sp - 8)
      .next { s with pc, sp := s.sp, stack := stw s.stack (s.sp - 8) (not64 a) }
    else if op = opJMP then
      let a := ldw s.stack (s.sp - 8)
      .next { s with pc := a, sp := s.sp - 8 }
    else if op = opBIZ then
      let t := readQuarterAt s.code pc
      let a := ldw s.stack (s.sp - 8)
      let pcq := pc + 2
      .next { s with sp := s.sp - 8,
                     pc := if a = 0 then (((pcq : Int) + quarterToInt t).toNat) else pcq }
    else if op = opBNZ then
      let t := readQuarterAt s.code pc
      let a := ldw s.stack (s.sp - 8)
      let pcq := pc + 2
      .next { s with sp := s.sp - 8,
                     pc := if a = 0 then pcq else (((pcq : Int) + quarterToInt t).toNat) }
    else if op = opLI then
      let v := readWordAt s.code pc
      .next { s with pc := pc + 8, sp := s.sp + 8, stack := stw s.stack s.sp v }
    else if op = opPUSHN then
      let n := readQuarterAt s.code pc
      .next { s with pc := pc + 2, sp := s.sp + 8 * n }
    else if op = opPOPN then
      let n := readQuarterAt s.code pc
      .next { s with pc := pc + 2, sp := s.sp - 8 * n }
    else if op = opLDBP then
      let q := readQuarterAt s.code pc
      let off := ((s.bp : Int) + quarterToInt q).toNat
      .next { s with pc := pc + 2, sp := s.sp + 8, stack := stw s.stack s.sp (ldw s.stack off) }
    else if op = opSTBP then
      let q := readQuarterAt s.code pc
      let off := ((s.bp : Int) + quarterToInt q).toNat
      let v := ldw s.stack (s.sp - 8)
      .next { s with pc := pc + 2, sp := s.sp - 8, stack := stw s.stack off v }
    else if op = opLDA then
      let w := readWordAt s.code pc
      .next { s with pc := pc + 8, sp := s.sp + 8, stack := stw s.stack s.sp (ldw s.stack w) }
    else if op = opSTA then
      let w := readWordAt s.code pc
      let v := ldw s.stack (s.sp - 8)
      .next { s with pc := pc + 8, sp := s.sp - 8, stack := stw s.stack w v }
    else if op = opLDI then
      let a := ldw s.stack (s.sp - 8)
      .next { s with pc, sp := s.sp, stack := stw s.stack (s.sp - 8) (ldw s.stack a) }
    else if op = opSTI then
      let a := ldw s.stack (s.sp - 8)
      let v := ldw s.stack (s.sp - 16)
      .next { s with pc, sp := s.sp - 16, stack := stw s.stack a v }
    else if op = opPRINT then
      let n := byteAt s.code pc
      .next { s with pc := pc + 1, sp := s.sp - 8 * n,
                     output := s.output ++ renderPrint (printArgs s n) }
    else if op = opFUNCPRO then
      .next { s with pc, sp := s.sp + 8, stack := stw s.stack s.sp s.bp, bp := s.sp + 8 }
    else if op = opRET then
      let sp0 := s.bp
      let newBp := ldw s.stack (sp0 - 8)
      let newPc := ldw s.stack (sp0 - 16)
      .next { s with pc := newPc, sp := sp0 - 16, bp := newBp }
    else if op = opCALL then
      let target := ldw s.stack (s.sp - 8)
      .next { s with pc := target, sp := s.sp, stack := stw s.stack (s.sp - 8) pc }
    else if op = opNOP then
      .next { s with pc }
    else if op = opEXIT then
      .done (ldw s.stack (s.sp - 8)) { s with pc, sp := s.sp - 8 }
    else
      .done (ldw s.stack (s.sp - 8))
        { s with pc, sp := s.sp - 8,
                 output := s.output ++ "Unknown opcode " ++ toString op ++ "\n" }

/-- vm.c `run`, with explicit fuel: iterate `step` until the loop is left,
then return the popped word together with the final state (whose `output`
is everything printed).  `none` means the fuel ran out or the machine
fetched past the code. -/
def run : Nat → VMState → Option (Nat × VMState)
  | 0, _ => none
  | fuel + 1, s =>
    match step s with
    | .next s1 => run fuel s1
    | .done w s1 => some (w, s1)
    | .stuck => none

/-- Initial machine state for a bytecode image (run sets pc to the code
base, sp to the stack base, bp to 0). -/
def initState (code : List Nat) : VMState :=
  { code := code, pc := 0, stack := fun _ => 0, sp := 0, bp := 0, output := "" }

/-- Iterate only `next` steps (for compositional reasoning). -/
def nsteps : Nat → VMState → Option VMState
  | 0, s => some s
  | n + 1, s =>
    match step s with
    | .next s1 => nsteps n s1
    | _ => none

/-- `s` reaches `t` by zero or more non-terminal VM steps. -/
def Reaches (s t : VMState) : Prop := ∃ n, nsteps n s = some t

theorem reaches_refl (s : VMState) : Reaches s s := ⟨0, rfl⟩

theorem reaches_step {s t : VMState} (h : step s = .next t) : Reaches s t := by
  exact ⟨1, by simp [nsteps, h]⟩

theorem nsteps_add (m n : Nat) (s : VMState) :
    nsteps (m + n) s = (nsteps m s).bind (nsteps n) := by
  induction m generalizing s with
  | zero => simp [nsteps]
  | succ m ih =>
    rw [Nat.succ_add]
    simp only [nsteps]
    cases step s with
    | next s1 => exact ih s1
    | done w s1 => simp
    | stuck => simp

theorem reaches_trans {s t u : VMState} (h1 : Reaches s t) (h2 : Reaches t u) :
    Reaches s u := by
  obtain ⟨m, hm⟩ := h1
  obtain ⟨n, hn⟩ := h2
  exact ⟨m + n, by rw [nsteps_add, hm]; exact hn⟩

theorem run_of_nsteps {n : Nat} {s t : VMState} (h : nsteps n s = some t)
    {f : Nat} {r : Nat × VMState} (hr : run f t = some r) :
    run (n + f) s = some r := by
  induction n generalizing s with
  | zero =>
    simp only [nsteps, Option.some.injEq] at h
    simpa [h] using hr
  | succ n ih =>
    simp only [nsteps] at h
    rw [Nat.succ_add]
    cases hs : step s with
    | next s1 =>
      rw [hs] at h
      simp only [run, hs]
      exact ih h
    | done w s1 => rw [hs] at h; exact absurd h (by simp)
    | stuck => rw [hs] at h; exact absurd h (by simp)

theorem run_of_reaches {s t : VMState} (h : Reaches s t)
    {f : Nat} {r : Nat × VMState} (hr : run f t = some r) :
    ∃ g, run g s = some r := by
  obtain ⟨n, hn⟩ := h
  exact ⟨n + f, run_of_nsteps hn hr⟩

/-! ## Type information and symbols

The compiler consumes a typed AST; the typing passes themselves
(typegen, infer, typecheck and type.c) are not part of the snapshot.
`TypeInfo` carries exactly the fields the bytecode backend reads. -/

inductive TypeInfo where
  | intTy (byteSize : Nat)
  | funcTy (paramTypes : List TypeInfo) (returnType : TypeInfo) (isComptime : Bool)
  | arrayTy (elementType : TypeInfo) (elements : Nat)

/-- `align_forward` (gen.h) on machine words: round `p` up to a multiple
of `align`. -/
def alignForwardN (p a : Nat) : Nat := if p % a = 0 then p else p + (a - p % a)

/-- `align_forward` applied to a (possibly negative) s64 cast to uintptr:
two's-complement arithmetic makes this round toward +infinity, which is
what `%` on Lean Int (Euclidean remainder) gives directly. -/
def alignForwardI (p : Int) (a : Nat) : Int :=
  if p % (a : Int) = 0 then p else p + ((a : Int) - p % (a : Int))

/-- `bytes_to_words` (gen.h): words needed to hold `bytes` bytes. -/
def bytesToWords (bytes : Nat) : Nat := (bytes + 7) / 8

/-- Modelled from the spec: `type_info_byte_size` (type.c is not in the
snapshot).  Integer types carry their size; arrays occupy
`elements * word_align(byte_size(element))`; a function type has no
storage size. -/
def typeInfoByteSize : TypeInfo → Nat
  | .intTy n => n
  | .funcTy _ _ _ => 0
  | .arrayTy elemTy n => n * alignForwardN (typeInfoByteSize elemTy) 8

inductive SymbolKind where
  | symFunc
  | symGlobalVar
  | symLocalVar
deriving DecidableEq, Repr

/-- A resolved symbol as the backend reads it: name, kind, type, and (for
a function symbol) the parameter symbols of its `symt_local`. -/
structure Symbol where
  name : String
  kind : SymbolKind
  typeInfo : TypeInfo
  params : List Symbol

/-- `get_sym_by_name` on the root symbol table. -/
def getSymByName (symt : List Symbol) (name : String) : Option Symbol :=
  symt.find? fun s => s.name = name

/-! ## The typed AST (as the backend consumes it)

The embedding covers the fragment the bytecode backend lowers and the
claims exercise: numeric and identifier literals, the arithmetic and
comparison binary operators, calls, and all statement forms.  (The
struct-member and array-index expression forms of gen.h are outside the
modelled fragment.) -/

inductive BinOp where
  | plus
  | minus
  | star
  | slash
  | lshiftOp
  | rshiftOp
  | eqOp
  | neqOp
  | greater
  | less
deriving DecidableEq, Repr

inductive Expr where
  /-- A LIT_NUM literal carrying its decimal lexeme. -/
  | num (lexeme : String)
  /-- A LIT_IDENT literal carrying its resolved symbol name. -/
  | ident (name : String)
  | binary (op : BinOp) (left right : Expr)
  /-- A call node: callee identifier, the call expression's resolved
  type, arguments, and the comptime-resolution fields. -/
  | call (identifier : String) (ty : TypeInfo) (args : List Expr)
      (isComptime : Bool) (isResolved : Bool) (resolvedNode : Option Expr)

inductive Stmt where
  | assign (left right : Expr)
  | ifS (cond : Expr) (thenB : Stmt) (elseB : Option Stmt)
  | whileS (cond : Expr) (body : Stmt)
  | continueS
  | breakS
  /-- A block carrying its local symbol table (`symt_local`). -/
  | block (symtLocal : List Symbol) (stmts : List Stmt)
  | printS (args : List Expr)
  | retS (node : Expr)

structure AstFunc where
  name : String
  body : Stmt

structure AstRoot where
  funcs : List AstFunc
  /-- Set by an upstream pass to the function named "main". -/
  mainFunction : Option AstFunc

/-- Modelled from the spec: `str_view_to_u32` (base/str.h is not in the
snapshot) parses the decimal lexeme into an unsigned 32-bit integer, each
step wrapping modulo 2^32 as u32 arithmetic does. -/
def strViewToU32 (s : String) : Nat :=
  s.toList.foldl (fun acc c => (acc * 10 + (c.toNat - 48)) % 4294967296) 0

/-- The mathematical value of a decimal digit lexeme (no truncation);
this is what the spec means by the value an integer literal denotes. -/
def lexemeVal (s : String) : Nat :=
  s.toList.foldl (fun acc c => acc * 10 + (c.toNat - 48)) 0

/-- The lexeme consists of decimal digits only. -/
def isDigits (s : String) : Bool :=
  s.toList.all fun c => 48 ≤ c.toNat ∧ c.toNat ≤ 57

/-! ## The bytecode compiler state (gen.h BytecodeCompiler) -/

/-- BytecodeCompilerFlags: BCF_STORE/BCF_LOAD in `store`, and the
BCF_LOCAL / BCF_ABS / BCF_ABS_IMM address-mode bits in `addr`. -/
inductive AddrKind where
  | bcfLocal
  | bcfAbs
  | bcfAbsImm
deriving DecidableEq, Repr

structure Flags where
  store : Bool
  addr : AddrKind
deriving DecidableEq, Repr

structure PatchCall where
  offset : Nat
  funcName : String
deriving DecidableEq, Repr

/-- `BytecodeCompiler`.  The hash maps become association lists (newest
binding first, as hashmap_put overwrites); the `+1` / `+S16_MAX+2` biases
the C code adds so that a stored 0 is not mistaken for a NULL pointer are
dropped, since an association list distinguishes absent from 0.
`loopOffsets` and `breakOffsets` are the two fixed 128-entry arrays; the
C program never initializes them, so a slot that is read before it is
written yields an arbitrary value (0 in the model).  The `source_lines`
debug map of the Bytecode image is not modelled. -/
structure BytecodeCompiler where
  symtRoot : List Symbol
  code : List Nat
  stackVars : List (List (String × Int))
  bpStackOffset : Int
  globals : List (String × Nat)
  functions : List (String × Nat)
  patches : List PatchCall
  loopOffsets : List Nat
  loopI : Nat
  breakOffsets : List Nat
  breakI : Nat
  flags : Flags

/-- Fatal compiler errors: LOG_FATAL followed by exit(1). `internal`
stands for the crashes (assert failures, null dereferences) the C code
would hit on inputs that violate the upstream AST contract. -/
inductive GenErr where
  | unresolvedVariable (name : String)
  | maxLoopDepth
  | maxBreakDepth
  | noMainFunction
  | internal
deriving DecidableEq, Repr

/-- LOOP_MAX_DEPTH and BREAK_MAX_DEPTH. -/
def loopMaxDepth : Nat := 128

/-- `bytecode_compiler_init` (stack_vars and bp_stack_offset are left
uninitialized by the C code; they are set before use on every path the
backend exercises, and start empty here). -/
def bytecodeCompilerInit (symtRoot : List Symbol) : BytecodeCompiler :=
  { symtRoot := symtRoot
    code := []
    stackVars := []
    bpStackOffset := 0
    globals := []
    functions := []
    patches := []
    loopOffsets := List.replicate loopMaxDepth 0
    loopI := 0
    breakOffsets := List.replicate loopMaxDepth 0
    breakI := 0
    flags := { store := false, addr := .bcfLocal } }

/-- `write_instruction`: append one byte (an opcode, or PRINT's count). -/
def writeInstruction (bc : BytecodeCompiler) (byte : Nat) : BytecodeCompiler :=
  { bc with code := bc.code ++ [byte % 256] }

/-- `writew`: append an immediate word, little-endian. -/
def writew (bc : BytecodeCompiler) (v : Nat) : BytecodeCompiler :=
  { bc with code := bc.code ++ encodeWord (v % wordMod) }

/-- `writeq`: append an immediate quarter, little-endian. -/
def writeq (bc : BytecodeCompiler) (v : Nat) : BytecodeCompiler :=
  { bc with code := bc.code ++ encodeQuarter (v % quarterMod) }

/-- `patchw` on the compiler's code buffer. -/
def patchwC (bc : BytecodeCompiler) (off v : Nat) : BytecodeCompiler :=
  { bc with code := patchWord bc.code off v }

/-- `patchi` on the compiler's code buffer. -/
def patchiC (bc : BytecodeCompiler) (off v : Nat) : BytecodeCompiler :=
  { bc with code := patchQuarter bc.code off v }

/-- `stack_vars_set` on the innermost scope (hashmap_put semantics: the
newest binding for a name wins). -/
def stackVarsSetTop (bc : BytecodeCompiler) (name : String) (off : Int) :
    BytecodeCompiler :=
  match bc.stackVars with
  | [] => bc
  | scope :: rest => { bc with stackVars := ((name, off) :: scope) :: rest }

/-- Look a name up through the scope chain, innermost first. -/
def scopesLookup : List (List (String × Int)) → String → Option Int
  | [], _ => none
  | scope :: rest, name =>
    match scope.find? (fun p => p.1 = name) with
    | some p => some p.2
    | none => scopesLookup rest name

/-- `get_var_slot`: walk the scope chain; a hit sets the BCF_LOCAL flag
and returns the bp-relative offset truncated to a BytecodeQuarter (the C
return type is s16).  Otherwise consult the globals map, setting BCF_ABS;
the absolute offset is likewise squeezed through the s16 return type.  A
name in neither is a fatal internal error. -/
def getVarSlot (bc : BytecodeCompiler) (name : String) :
    Except GenErr (Int × BytecodeCompiler) :=
  match scopesLookup bc.stackVars name with
  | some off =>
    .ok (quarterToInt (intToQuarter off),
         { bc with flags := { bc.flags with addr := .bcfLocal } })
  | none =>
    match bc.globals.find? (fun p => p.1 = name) with
    | some p =>
      .ok (quarterToInt (intToQuarter p.2),
           { bc with flags := { bc.flags with addr := .bcfAbs } })
    | none => .error (.unresolvedVariable name)

/-- The u32 value of a (sign-extended) s16 slot, as the callers of
`get_var_slot` hold it. -/
def intToWord32 (i : Int) : Nat := (i % (4294967296 : Int)).toNat

/-- `write_instruction_load_or_store`: emit the load or store matching
the current flags, with its quarter or word operand. -/
def writeInstructionLoadOrStore (bc : BytecodeCompiler) (offset32 : Nat) :
    BytecodeCompiler :=
  if bc.flags.store then
    match bc.flags.addr with
    | .bcfLocal => writeq (writeInstruction bc opSTBP) offset32
    | .bcfAbs => writew (writeInstruction bc opSTA) offset32
    | .bcfAbsImm => writeInstruction bc opSTI
  else
    match bc.flags.addr with
    | .bcfLocal => writeq (writeInstruction bc opLDBP) offset32
    | .bcfAbs => writew (writeInstruction bc opLDA) offset32
    | .bcfAbsImm => writeInstruction bc opLDI

/-- `func_register_start`: record the current code offset as the named
function's first instruction. -/
def funcRegisterStart (bc : BytecodeCompiler) (funcName : String) :
    BytecodeCompiler :=
  { bc with functions := (funcName, bc.code.length) :: bc.functions }

/-- `func_get_start`: a known function yields its start offset; an
unknown one records a patch entry at the current code offset and yields
the 0 placeholder.  (The C patch array holds 100 entries; growth beyond
that overruns it.) -/
def funcGetStart (bc : BytecodeCompiler) (funcName : String) :
    Nat × BytecodeCompiler :=
  match bc.functions.find? (fun p => p.1 = funcName) with
  | some p => (p.2, bc)
  | none =>
    (0, { bc with patches := bc.patches ++ [⟨bc.code.length, funcName⟩] })

/-- `new_stack_vars_from_block`: push a fresh scope, give each local
variable of the block its bp-relative slot (each aligned to a word
boundary), and return the number of words the block's locals occupy. -/
def newStackVarsFromBlock (bc : BytecodeCompiler) (symt : List Symbol) :
    Nat × BytecodeCompiler :=
  let bc := { bc with stackVars := [] :: bc.stackVars }
  let bpOffsetPre := bc.bpStackOffset
  let bc := symt.foldl
    (fun bc sym =>
      if sym.kind = .symLocalVar then
        let bc := stackVarsSetTop bc sym.name bc.bpStackOffset
        { bc with bpStackOffset :=
            alignForwardI (bc.bpStackOffset + (typeInfoByteSize sym.typeInfo : Int)) 8 }
      else bc)
    bc
  (bytesToWords (bc.bpStackOffset - bpOffsetPre).toNat, bc)

/-- The name under which the return slot is stored in the variable
environment.  (The C global `return_var_internal_name` is assigned only
in `ast_root_to_bytecode`; during comptime lowering it still holds its
zero value, but as it is used only as a map key, and consistently so,
the behaviour is the same as with the fixed name.) -/
def returnVarInternalName : String := "__RETURN__VAR__"

/-! ## Expression and statement lowering
(ast_expr_to_bytecode / ast_stmt_to_bytecode) -/

mutual

/-- `ast_expr_to_bytecode`.  A resolved call short-circuits to its
resolved node.  An unresolved call emits PUSHN for the return slot, the
arguments in order, LI of the callee start (0 with a patch entry when the
callee is not yet emitted), CALL, and POPN of the argument words.  A
numeric literal emits LI of its lexeme parsed as u32; an identifier
resolves its slot and emits the load or store the flags select; a binary
expression lowers right, then left, then its opcode(s). -/
def genExpr (bc : BytecodeCompiler) : Expr → Except GenErr BytecodeCompiler
  | .call identifier ty args _ isResolved resolvedNode =>
    if isResolved then
      match resolvedNode with
      | some r => genExpr bc r
      | none => .error .internal
    else
      match getSymByName bc.symtRoot identifier with
      | none => .error .internal
      | some callee =>
        match callee.typeInfo with
        | .funcTy paramTypes _ _ =>
          let argSpaceWords := paramTypes.foldl
            (fun acc t => acc + bytesToWords (typeInfoByteSize t)) 0
          let returnTypeSpace := bytesToWords (typeInfoByteSize ty)
          let bc := writeq (writeInstruction bc opPUSHN) returnTypeSpace
          do
            let bc ← genExprList bc args
            let bc := writeInstruction bc opLI
            let (start, bc) := funcGetStart bc identifier
            let bc := writew bc start
            let bc := writeInstruction bc opCALL
            .ok (writeq (writeInstruction bc opPOPN) argSpaceWords)
        | _ => .error .internal
  | .binary op left right => do
    let bc ← genExpr bc right
    let bc ← genExpr bc left
    match op with
    | .plus => .ok (writeInstruction bc opADD)
    | .minus => .ok (writeInstruction bc opSUB)
    | .star => .ok (writeInstruction bc opMUL)
    | .slash => .ok (writeInstruction bc opDIV)
    | .lshiftOp => .ok (writeInstruction bc opLSHIFT)
    | .rshiftOp => .ok (writeInstruction bc opRSHIFT)
    | .eqOp => .ok (writeInstruction (writeInstruction bc opSUB) opNOT)
    | .neqOp => .ok (writeInstruction bc opSUB)
    | .greater => .ok (writeInstruction bc opGE)
    | .less => .ok (writeInstruction bc opLE)
  | .num lexeme =>
    .ok (writew (writeInstruction bc opLI) (strViewToU32 lexeme))
  | .ident name => do
    let (slot, bc) ← getVarSlot bc name
    .ok (writeInstructionLoadOrStore bc (intToWord32 slot))

/-- Lower a list of expressions in order (the argument loop of the
EXPR_CALL case). -/
def genExprList (bc : BytecodeCompiler) : List Expr → Except GenErr BytecodeCompiler
  | [] => .ok bc
  | e :: es => do
    let bc ← genExpr bc e
    genExprList bc es

/-- `ast_stmt_to_bytecode`. -/
def genStmt (bc : BytecodeCompiler) : Stmt → Except GenErr BytecodeCompiler
  | .assign left right => do
    let bc ← genExpr bc right
    let bc := { bc with flags := { bc.flags with store := true } }
    let bc ← genExpr bc left
    .ok { bc with flags := { bc.flags with store := false } }
  | .ifS cond thenB elseB => do
    let bc ← genExpr bc cond
    let bc := writeInstruction bc opBIZ
    let elseTarget := bc.code.length
    let bc := writeq bc 0
    let bc ← genStmt bc thenB
    match elseB with
    | none =>
      .ok (patchiC bc elseTarget (bc.code.length - elseTarget - 2))
    | some elseStmt =>
      let bc := writeInstruction bc opLI
      let endifTarget := bc.code.length
      let bc := writew bc 0
      let bc := writeInstruction bc opJMP
      let bc := patchiC bc elseTarget (bc.code.length - elseTarget - 2)
      do
        let bc ← genStmt bc elseStmt
        .ok (patchwC bc endifTarget bc.code.length)
  | .whileS cond body => do
    let loopStartOffset := bc.code.length
    let bc := { bc with loopI := bc.loopI + 1 }
    let bc := { bc with loopOffsets := bc.loopOffsets.set bc.loopI loopStartOffset }
    if loopMaxDepth ≤ bc.loopI then .error .maxLoopDepth
    else
      let breakIPrev := bc.breakI
      do
        let bc ← genExpr bc cond
        let bc := writeInstruction bc opBIZ
        let endTarget := bc.code.length
        let bc := writeq bc 0
        let bc ← genStmt bc body
        let bc := writew (writeInstruction bc opLI) loopStartOffset
        let bc := writeInstruction bc opJMP
        let bc := patchiC bc endTarget (bc.code.length - endTarget - 2)
        let loopEndOffset := bc.code.length
        let bc := (List.range (bc.breakI - breakIPrev)).foldl
          (fun bc2 k =>
            patchwC bc2 (bc2.breakOffsets.getD (breakIPrev + (breakIPrev + k)) 0)
              loopEndOffset)
          bc
        .ok { bc with breakI := breakIPrev, loopI := bc.loopI - 1 }
  | .continueS =>
    let bc := writew (writeInstruction bc opLI) (bc.loopOffsets.getD bc.loopI 0)
    .ok (writeInstruction bc opJMP)
  | .breakS =>
    let bc := writeInstruction bc opLI
    let breakImm := bc.code.length
    let bc := writew bc (intToWord (-1))
    let bc := writeInstruction bc opJMP
    let bc := { bc with breakOffsets := bc.breakOffsets.set bc.breakI breakImm,
                        breakI := bc.breakI + 1 }
    if loopMaxDepth < bc.breakI then .error .maxBreakDepth else .ok bc
  | .block symtLocal stmts =>
    if symtLocal.length > 0 then
      let (varSpaceInWords, bc) := newStackVarsFromBlock bc symtLocal
      let bc := writeq (writeInstruction bc opPUSHN) varSpaceInWords
      do
        let bc ← genStmtList bc stmts
        let bc := writeq (writeInstruction bc opPOPN) varSpaceInWords
        .ok { bc with stackVars := bc.stackVars.tail }
    else
      genStmtList bc stmts
  | .printS args => do
    let bc ← genExprList bc args
    let bc := writeInstruction bc opPRINT
    .ok (writeInstruction bc (args.length % 256))
  | .retS node => do
    let bc ← genExpr bc node
    let (slot, bc) ← getVarSlot bc returnVarInternalName
    let bc := writeq (writeInstruction bc opSTBP) (intToQuarter slot)
    .ok (writeInstruction bc opRET)

/-- Lower the statements of a block in order. -/
def genStmtList (bc : BytecodeCompiler) : List Stmt → Except GenErr BytecodeCompiler
  | [] => .ok bc
  | st :: sts => do
    let bc ← genStmt bc st
    genStmtList bc sts

end

/-! ## Function and program lowering -/

/-- `ast_func_to_bytecode`: skip comptime functions; otherwise register
the function start, build the frame environment (return slot at
bp-relative offset −S, then the parameters; S covers saved pc, saved bp,
word-aligned parameters and the return slot), emit FUNCPRO, the body, and
the trailing EXIT (main) or RET. -/
def astFuncToBytecode (bc : BytecodeCompiler) (func : AstFunc) (isMain : Bool) :
    Except GenErr BytecodeCompiler :=
  match getSymByName bc.symtRoot func.name with
  | none => .error .internal
  | some sym =>
    match sym.typeInfo with
    | .funcTy _ returnType isComptime =>
      if isComptime then .ok bc
      else
        let bc := funcRegisterStart bc func.name
        let bc := { bc with stackVars := [[]], bpStackOffset := 0 }
        let paramsSpace := sym.params.foldl
          (fun acc p => alignForwardN (acc + typeInfoByteSize p.typeInfo) 8) 0
        let stackSpaceBeforeBp := alignForwardN
          (8 * 2 + paramsSpace + bytesToWords (typeInfoByteSize returnType)) 8
        let bc := stackVarsSetTop bc returnVarInternalName (-(stackSpaceBeforeBp : Int))
        let currentBpOffset := alignForwardI
          (-(stackSpaceBeforeBp : Int) + (typeInfoByteSize returnType : Int)) 8
        let (bc, _) := sym.params.foldl
          (fun (acc : BytecodeCompiler × Int) p =>
            let bc := stackVarsSetTop acc.1 p.name acc.2
            (bc, alignForwardI (acc.2 + (typeInfoByteSize p.typeInfo : Int)) 8))
          (bc, currentBpOffset)
        let bc := writeInstruction bc opFUNCPRO
        do
          let bc ← genStmt bc func.body
          let bc := writeInstruction bc (if isMain then opEXIT else opRET)
          .ok { bc with stackVars := [] }
    | _ => .error .internal

/-- The loop over root->funcs that lowers every function not named
"main" (shared by ast_call_to_bytecode and ast_root_to_bytecode). -/
def genFuncsExceptMain (bc : BytecodeCompiler) :
    List AstFunc → Except GenErr BytecodeCompiler
  | [] => .ok bc
  | f :: fs =>
    if f.name = "main" then genFuncsExceptMain bc fs
    else do
      let bc ← astFuncToBytecode bc f false
      genFuncsExceptMain bc fs

/-- The patch drain `for (i = 0; i < calls_to_patch; i++)`: each entry is
re-resolved through `func_get_start` and its placeholder overwritten.  A
still-unknown callee makes `func_get_start` append a fresh patch entry,
which the loop then also visits, so an unresolvable entry makes the drain
run away (the C array holds 100 entries and the overrun is undefined
behaviour); the model bounds it with fuel and returns `none` when the
fuel is spent. -/
def patchCallsLoop : Nat → BytecodeCompiler → Nat → Option BytecodeCompiler
  | 0, _, _ => none
  | fuel + 1, bc, i =>
    if i < bc.patches.length then
      let p := bc.patches.getD i ⟨0, ""⟩
      let (actual, bc) := funcGetStart bc p.funcName
      let bc := patchwC bc p.offset actual
      patchCallsLoop fuel bc (i + 1)
    else some bc

/-- Fuel for the patch drain: enough for every recorded entry plus the
100-entry capacity of the C patches array (beyond which the C program
overruns the array). -/
def patchFuel (bc : BytecodeCompiler) : Nat := bc.patches.length + 101

/-- `ast_call_to_bytecode`: lower the comptime call's first argument,
append EXIT, lower every function except main so the CALL targets exist,
and drain the patch list.  `none` wraps a runaway patch drain. -/
def astCallToBytecode (symtRoot : List Symbol) (root : AstRoot) (call : Expr) :
    Except GenErr (Option BytecodeCompiler) :=
  let bc := bytecodeCompilerInit symtRoot
  match call with
  | .call _ _ args _ _ _ =>
    match args with
    | [] => .error .internal
    | e :: _ => do
      let bc ← genExpr bc e
      let bc := writeInstruction bc opEXIT
      let bc ← genFuncsExceptMain bc root.funcs
      .ok (patchCallsLoop (patchFuel bc) bc 0)
  | _ => .error .internal

/-- `ast_root_to_bytecode`: reserve stack slots for the global variables
(each array element word-aligned), lower main (trailing EXIT), lower
every other function (trailing RET), and drain the patch list. -/
def astRootToBytecode (symtRoot : List Symbol) (root : AstRoot) :
    Except GenErr (Option BytecodeCompiler) :=
  let bc := bytecodeCompilerInit symtRoot
  let globalsState := symtRoot.foldl
    (fun (acc : Int × List (String × Nat)) sym =>
      if sym.kind = .symGlobalVar then
        let m := (sym.name, acc.1.toNat) :: acc.2
        let space := match sym.typeInfo with
          | .arrayTy elemTy n =>
            acc.1 + (n * alignForwardN (typeInfoByteSize elemTy) 8 : Nat)
          | t => acc.1 + (typeInfoByteSize t : Nat)
        (alignForwardI space 8, m)
      else acc)
    ((0 : Int), [])
  let globalsSlots := (globalsState.1 / 8).toNat
  let bc := { bc with globals := globalsState.2 }
  let bc := writeq (writeInstruction bc opPUSHN) globalsSlots
  match root.mainFunction with
  | none => .error .noMainFunction
  | some mainFunc => do
    let bc ← astFuncToBytecode bc mainFunc true
    let bc ← genFuncsExceptMain bc root.funcs
    .ok (patchCallsLoop (patchFuel bc) bc 0)

/-! ## The compile-time driver (main.c compile)

The driver's fixed-point loop re-runs the typing passes, walks the
collected compile-time calls, evaluates each through
`ast_call_to_bytecode` and the VM, and installs the result as a literal,
until no unresolved comptime call remains.  The passes that collect
`ast_root->comptime_calls` are not part of the snapshot; per the spec
they gather the calls "marked by is_comptime" that are not yet resolved,
in AST-walk order.  Because the C loop mutates the shared AST call node
by call node, the model resolves one call at a time and re-collects,
which visits the same calls in the same order. -/

/-- Whether a call node is an unresolved compile-time call
(`is_comptime && !is_resolved`). -/
def isUnresolvedComptime : Expr → Bool
  | .call _ _ _ isComptime isResolved _ => isComptime && !isResolved
  | _ => false

mutual

/-- Every call node of an expression, in pre-order. -/
def allCallsExpr : Expr → List Expr
  | .num _ => []
  | .ident _ => []
  | .binary _ left right => allCallsExpr left ++ allCallsExpr right
  | .call identifier ty args isComptime isResolved resolvedNode =>
    .call identifier ty args isComptime isResolved resolvedNode ::
      (allCallsExprList args ++
        (match resolvedNode with
         | some r => allCallsExpr r
         | none => []))

def allCallsExprList : List Expr → List Expr
  | [] => []
  | e :: es => allCallsExpr e ++ allCallsExprList es

/-- Every call node of a statement, in pre-order. -/
def allCallsStmt : Stmt → List Expr
  | .assign left right => allCallsExpr left ++ allCallsExpr right
  | .ifS cond thenB elseB =>
    allCallsExpr cond ++ allCallsStmt thenB ++
      (match elseB with
       | some e => allCallsStmt e
       | none => [])
  | .whileS cond body => allCallsExpr cond ++ allCallsStmt body
  | .continueS => []
  | .breakS => []
  | .block _ stmts => allCallsStmtList stmts
  | .printS args => allCallsExprList args
  | .retS node => allCallsExpr node

def allCallsStmtList : List Stmt → List Expr
  | [] => []
  | st :: sts => allCallsStmt st ++ allCallsStmtList sts

end

/-- Every call node of the program (function bodies in list order; the
main function is an element of `funcs`). -/
def allCallsRoot (root : AstRoot) : List Expr :=
  (root.funcs.map fun f => allCallsStmt f.body).flatten

/-- Modelled from the spec: the `comptime_calls` collection the typing
passes rebuild each driver iteration — the unresolved compile-time calls
of the AST in walk order. -/
def comptimeCalls (root : AstRoot) : List Expr :=
  (allCallsRoot root).filter isUnresolvedComptime

mutual

/-- Replace the first unresolved comptime call (same walk order as
`allCallsExpr`) by `new`; the Bool records whether it happened. -/
def replaceFirstExpr (new : Expr) : Expr → Expr × Bool
  | .num lexeme => (.num lexeme, false)
  | .ident name => (.ident name, false)
  | .binary op left right =>
    let l := replaceFirstExpr new left
    if l.2 then (.binary op l.1 right, true)
    else
      let r := replaceFirstExpr new right
      (.binary op left r.1, r.2)
  | .call identifier ty args isComptime isResolved resolvedNode =>
    if isComptime && !isResolved then (new, true)
    else
      let a := replaceFirstExprList new args
      (.call identifier ty a.1 isComptime isResolved resolvedNode, a.2)

def replaceFirstExprList (new : Expr) : List Expr → List Expr × Bool
  | [] => ([], false)
  | e :: es =>
    let r := replaceFirstExpr new e
    if r.2 then (r.1 :: es, true)
    else
      let rs := replaceFirstExprList new es
      (e :: rs.1, rs.2)

def replaceFirstStmt (new : Expr) : Stmt → Stmt × Bool
  | .assign left right =>
    let l := replaceFirstExpr new left
    if l.2 then (.assign l.1 right, true)
    else
      let r := replaceFirstExpr new right
      (.assign left r.1, r.2)
  | .ifS cond thenB elseB =>
    let c := replaceFirstExpr new cond
    if c.2 then (.ifS c.1 thenB elseB, true)
    else
      let t := replaceFirstStmt new thenB
      if t.2 then (.ifS cond t.1 elseB, true)
      else
        match elseB with
        | some e =>
          let r := replaceFirstStmt new e
          (.ifS cond thenB (some r.1), r.2)
        | none => (.ifS cond thenB none, false)
  | .whileS cond body =>
    let c := replaceFirstExpr new cond
    if c.2 then (.whileS c.1 body, true)
    else
      let b := replaceFirstStmt new body
      (.whileS cond b.1, b.2)
  | .continueS => (.continueS, false)
  | .breakS => (.breakS, false)
  | .block symtLocal stmts =>
    let r := replaceFirstStmtList new stmts
    (.block symtLocal r.1, r.2)
  | .printS args =>
    let r := replaceFirstExprList new args
    (.printS r.1, r.2)
  | .retS node =>
    let r := replaceFirstExpr new node
    (.retS r.1, r.2)

def replaceFirstStmtList (new : Expr) : List Stmt → List Stmt × Bool
  | [] => ([], false)
  | st :: sts =>
    let r := replaceFirstStmt new st
    if r.2 then (r.1 :: sts, true)
    else
      let rs := replaceFirstStmtList new sts
      (st :: rs.1, rs.2)

end

/-- Replace the first unresolved comptime call of the program by `new`
(the function list shares structure with `main_function`, which the C
driver mutates through the same pointers; the model rewrites both). -/
def replaceFirstRoot (new : Expr) (root : AstRoot) : AstRoot :=
  let rec go : List AstFunc → List AstFunc × Bool
    | [] => ([], false)
    | f :: fs =>
      let r := replaceFirstStmt new f.body
      if r.2 then ({ f with body := r.1 } :: fs, true)
      else
        let rs := go fs
        (f :: rs.1, rs.2)
  let funcs := (go root.funcs).1
  { funcs := funcs
    mainFunction := funcs.find? fun f => f.name = "main" }

/-- Modelled from the spec: the literal lexeme the driver builds with
`str_builder_sprintf("%d", result)` (base/str.h is not in the snapshot)
is "the decimal rendering of the word". -/
def decRenderWord (w : Nat) : String := toString (wordToInt w)

/-- The resolved version of a call node: `is_resolved := true`,
`resolved_node :=` a LIT_NUM literal rendering the VM result. -/
def resolveCallNode (c : Expr) (w : Nat) : Expr :=
  match c with
  | .call identifier ty args isComptime _ _ =>
    .call identifier ty args isComptime true (some (.num (decRenderWord w)))
  | e => e

/-- Synthesize the bytecode for one comptime call and run it in a fresh
VM, as the driver's inner loop does; `none` when the lowering hits a
fatal error, the patch drain runs away, or the VM fuel is spent. -/
def evalCallWord (vmFuel : Nat) (symtRoot : List Symbol) (root : AstRoot)
    (c : Expr) : Option Nat :=
  match astCallToBytecode symtRoot root c with
  | .error _ => none
  | .ok none => none
  | .ok (some bc) => (run vmFuel (initState bc.code)).map Prod.fst

/-- The driver's fixed-point loop: while some unresolved comptime call
exists, evaluate the first one against the current (partially mutated)
AST and install its literal. -/
def driver (symtRoot : List Symbol) (vmFuel : Nat) :
    Nat → AstRoot → Option AstRoot
  | 0, _ => none
  | fuel + 1, root =>
    match (comptimeCalls root).head? with
    | none => some root
    | some c =>
      match evalCallWord vmFuel symtRoot root c with
      | none => none
      | some w => driver symtRoot vmFuel fuel (replaceFirstRoot (resolveCallNode c w) root)

/-! ## Reference semantics for the arithmetic round trip

The spec side of claim C1: the two's-complement signed 64-bit evaluation
of an expression built from integer literals and the binary operators,
the left operand applied to the right (`SUB`/`DIV`/shifts compute
left op right). -/

/-- The claimed 64-bit result of a binary operator on two word patterns
(left, then right). -/
def binOpEval64 : BinOp → Nat → Nat → Nat
  | .plus, a, b => add64 a b
  | .minus, a, b => sub64 a b
  | .star, a, b => mul64 a b
  | .slash, a, b => div64 a b
  | .lshiftOp, a, b => lshift64 a b
  | .rshiftOp, a, b => rshift64 a b
  | .eqOp, a, b => not64 (sub64 a b)
  | .neqOp, a, b => sub64 a b
  | .greater, a, b => gt64 a b
  | .less, a, b => lt64 a b

/-- Two's-complement signed 64-bit evaluation of an expression: an
integer literal denotes the value of its decimal lexeme (as a 64-bit
word), and each binary operator combines left and right.  Forms outside
claim C1's fragment evaluate to 0. -/
def specEval64 : Expr → Nat
  | .num lexeme => lexemeVal lexeme % wordMod
  | .binary op left right => binOpEval64 op (specEval64 left) (specEval64 right)
  | .ident _ => 0
  | .call _ _ _ _ _ _ => 0

/-- The operator is one of the six claim C1 allows: + - * / << >>. -/
def isArithOp : BinOp → Bool
  | .plus => true
  | .minus => true
  | .star => true
  | .slash => true
  | .lshiftOp => true
  | .rshiftOp => true
  | _ => false

/-- The expression is built only from integer literals and + - * / << >>. -/
def arithOnly : Expr → Bool
  | .num _ => true
  | .binary op left right => isArithOp op && arithOnly left && arithOnly right
  | _ => false

/-- Every literal lexeme of the expression denotes a value below 2^32
(so the u32 parse of the lowering is exact). -/
def litsFit : Expr → Bool
  | .num lexeme => lexemeVal lexeme < 4294967296
  | .binary _ left right => litsFit left && litsFit right
  | _ => true

/-- The bytes `ast_expr_to_bytecode` emits for an arithmetic-only
expression (proved to agree with `genExpr` in `genExpr_arith`): right
operand first, then left, then the opcode. -/
def arithBytes : Expr → List Nat
  | .num lexeme => opLI :: encodeWord (strViewToU32 lexeme)
  | .binary op left right =>
    arithBytes right ++ arithBytes left ++
      (match op with
       | .plus => [opADD]
       | .minus => [opSUB]
       | .star => [opMUL]
       | .slash => [opDIV]
       | .lshiftOp => [opLSHIFT]
       | .rshiftOp => [opRSHIFT]
       | .eqOp => [opSUB, opNOT]
       | .neqOp => [opSUB]
       | .greater => [opGE]
       | .less => [opLE])
  | _ => []

/-- Resolve a start offset through the functions table, as the patch
drain does for a resolvable entry. -/
def funcStartLookup (functions : List (String × Nat)) (name : String) : Option Nat :=
  (functions.find? fun q => q.1 = name).map fun q => q.2

/-! ## Concrete inputs used by witnesses, counterexamples and bug
evaluations -/

/-- The s32 type (byte size 4). -/
def s32 : TypeInfo := .intTy 4

/-- The symbol of `func main(): s32` (no parameters, not comptime). -/
def mainSymbol : Symbol := ⟨"main", .symFunc, .funcTy [] s32 false, []⟩

/-- The expression `1 + 2 * 3`. -/
def exprOnePlusTwoTimesThree : Expr :=
  .binary .plus (.num "1") (.binary .star (.num "2") (.num "3"))

/-- A comptime call `@eval(e)` wrapping one argument expression. -/
def evalCallOf (e : Expr) : Expr := .call "eval" s32 [e] true false none

/-- `func main(): s32 begin print 1 + 2 * 3 return 0 end` (spec
scenario 1): a block with no locals, a print of one expression, and a
return of 0. -/
def printMainFunc : AstFunc :=
  ⟨"main", .block [] [.printS [exprOnePlusTwoTimesThree], .retS (.num "0")]⟩

def printRoot : AstRoot := ⟨[printMainFunc], some printMainFunc⟩

/-- Nested while loops, each containing a break, the outer break before
the inner loop: `while 1 begin break while 1 begin break end end`. -/
def nestedBreakProg : Stmt :=
  .whileS (.num "1")
    (.block [] [.breakS, .whileS (.num "1") (.block [] [.breakS])])

/-- A bytecode image whose call target 11 is the FUNCPRO;RET pair that
follows EXIT: LI 11; CALL; EXIT; FUNCPRO; RET. -/
def callRetCode : List Nat := [opLI] ++ encodeWord 11 ++ [opCALL, opEXIT, opFUNCPRO, opRET]

/-- The machine state immediately before the CALL of `callRetCode`
executes (after LI 11: pc 9, the target word on top of the stack). -/
def callRetBefore : VMState :=
  ⟨callRetCode, 9, stw (fun _ => 0) 0 11, 8, 0, ""⟩

/-- The machine state immediately before the RET of `callRetCode`
executes (after CALL and FUNCPRO: saved pc 10 in slot 0, saved bp 0 in
slot 1, bp = sp = 16). -/
def callRetAtRet : VMState :=
  ⟨callRetCode, 12, stw (stw (fun _ => 0) 0 10) 8 0, 16, 16, ""⟩

/-- A bytecode image that pushes 42 and then hits the unknown opcode
255: LI 42; 0xFF. -/
def unknownOpcodeCode : List Nat := [opLI] ++ encodeWord 42 ++ [255]

/-- The same image ended by EXIT instead of the unknown opcode. -/
def exitCode : List Nat := [opLI] ++ encodeWord 42 ++ [opEXIT]

/-- `func main(): s32 begin return @eval(5) end`: one unresolved
comptime call. -/
def comptimeMainFunc : AstFunc :=
  ⟨"main", .block [] [.retS (evalCallOf (.num "5"))]⟩

def comptimeRoot : AstRoot := ⟨[comptimeMainFunc], some comptimeMainFunc⟩

/-- `comptimeRoot` after the driver resolves its call: `is_resolved`,
with resolved node the literal "5". -/
def comptimeMainResolved : AstFunc :=
  ⟨"main", .block [] [.retS (.call "eval" s32 [.num "5"] true true (some (.num "5")))]⟩

def comptimeRootResolved : AstRoot := ⟨[comptimeMainResolved], some comptimeMainResolved⟩

/-- The symbol of `func f(): s32` marked comptime: `ast_func_to_bytecode`
skips such a function, so a plain call to it records a patch entry no
emitted function ever satisfies. -/
def comptimeFSymbol : Symbol := ⟨"f", .symFunc, .funcTy [] s32 true, []⟩

def comptimeFFunc : AstFunc := ⟨"f", .block [] [.retS (.num "1")]⟩

/-- `func main(): s32 begin return f() end` where `f` is comptime. -/
def ghostCallMainFunc : AstFunc :=
  ⟨"main", .block [] [.retS (.call "f" s32 [] false false none)]⟩

def ghostCallRoot : AstRoot := ⟨[ghostCallMainFunc, comptimeFFunc], some ghostCallMainFunc⟩

/-- A state about to execute `PRINT 1` with the word 7 on top of the
stack (the state the lowered print statement of `printRoot` reaches). -/
def printOneState : VMState := ⟨[opPRINT, 1], 0, stw (fun _ => 0) 0 7, 8, 0, ""⟩

/-- A state about to fetch the unknown opcode 255 with the word 5 on top
of the stack. -/
def unknownOpState : VMState := ⟨[255], 0, stw (fun _ => 0) 0 5, 8, 0, ""⟩

/-- A compiler state holding one forward patch at offset 2 naming the
registered function g (start offset 9), over a 20-byte code buffer. -/
def onePatchBc : BytecodeCompiler :=
  { bytecodeCompilerInit [] with code := List.replicate 20 0, patches := [⟨2, "g"⟩], functions := [("g", 9)] }

/-! ## General lemmas: byte streams, patching, and VM steps -/

theorem byteAt_append (pre l : List Nat) (i : Nat) :
    byteAt (pre ++ l) (pre.length + i) = byteAt l i := by
  simp only [byteAt, List.getD, List.get?_eq_getElem?]
  rw [List.getElem?_append_right (by omega)]
  simp

theorem foldDigitsMod (l : List Char) (a : Nat) :
    l.foldl (fun acc c => (acc * 10 + (c.toNat - 48)) % 4294967296) (a % 4294967296)
      = (l.foldl (fun acc c => acc * 10 + (c.toNat - 48)) a) % 4294967296 := by
  induction l generalizing a with
  | nil => simp
  | cons c l ih =>
    simp only [List.foldl_cons]
    rw [show (a % 4294967296 * 10 + (c.toNat - 48)) % 4294967296
        = (a * 10 + (c.toNat - 48)) % 4294967296 by omega]
    rw [← ih (a * 10 + (c.toNat - 48))]

theorem strViewToU32_eq (s : String) :
    strViewToU32 s = lexemeVal s % 4294967296 := by
  have h := foldDigitsMod s.toList 0
  simpa [strViewToU32, lexemeVal] using h

theorem strViewToU32_lt (s : String) : strViewToU32 s < 4294967296 := by
  rw [strViewToU32_eq]
  omega

theorem readWordAt_encode (pre post : List Nat) (v : Nat) (h : v < wordMod) :
    readWordAt (pre ++ (encodeWord v ++ post)) pre.length = v := by
  have hb : ∀ i : Nat, byteAt (pre ++ (encodeWord v ++ post)) (pre.length + i)
      = byteAt (encodeWord v ++ post) i := fun i => byteAt_append pre _ i
  have h0 := hb 0
  rw [Nat.add_zero] at h0
  simp only [readWordAt]
  rw [h0, hb 1, hb 2, hb 3, hb 4, hb 5, hb 6, hb 7]
  simp only [encodeWord, byteAt, List.cons_append, List.getD_cons_zero, List.getD_cons_succ]
  unfold wordMod at h
  omega

theorem patchBytes_length (bs : List Nat) (code : List Nat) (off : Nat) :
    (patchBytes code off bs).length = code.length := by
  induction bs generalizing code off with
  | nil => rfl
  | cons b bs ih => simp [patchBytes, ih]

theorem byteAt_patchBytes_outside (bs : List Nat) (code : List Nat) (off i : Nat)
    (h : i < off ∨ off + bs.length ≤ i) :
    byteAt (patchBytes code off bs) i = byteAt code i := by
  induction bs generalizing code off with
  | nil => rfl
  | cons b bs ih =>
    simp only [patchBytes]
    rw [ih (code.set off b) (off + 1) (by simp at h; omega)]
    simp only [byteAt, List.getD, List.get?_eq_getElem?]
    rw [List.getElem?_set_ne (by simp at h; omega)]

theorem byteAt_patchBytes_inside (bs : List Nat) (code : List Nat) (off k : Nat)
    (hk : k < bs.length) (hb : off + bs.length ≤ code.length) :
    byteAt (patchBytes code off bs) (off + k) = bs.getD k 0 := by
  induction bs generalizing code off k with
  | nil => exact absurd hk (by simp)
  | cons b bs ih =>
    simp only [patchBytes]
    match k with
    | 0 =>
      rw [byteAt_patchBytes_outside bs (code.set off b) (off + 1) (off + 0) (by omega)]
      simp only [byteAt, List.getD, List.get?_eq_getElem?, Nat.add_zero]
      rw [List.getElem?_set_self (by simp at hb ⊢; omega)]
      simp
    | k + 1 =>
      have := ih (code.set off b) (off + 1) k (by simp at hk; omega) (by simp; simp at hb; omega)
      rw [show off + (k + 1) = off + 1 + k by omega]
      rw [this]
      simp

theorem patchWord_length (code : List Nat) (off v : Nat) :
    (patchWord code off v).length = code.length := patchBytes_length _ _ _

theorem readWordAt_patchWord_self (code : List Nat) (off v : Nat)
    (hb : off + 8 ≤ code.length) :
    readWordAt (patchWord code off v) off = v % wordMod := by
  have hlen : (encodeWord (v % wordMod)).length = 8 := rfl
  have hk : ∀ k, k < 8 → byteAt (patchWord code off v) (off + k)
      = (encodeWord (v % wordMod)).getD k 0 := by
    intro k hklt
    exact byteAt_patchBytes_inside _ code off k (by rw [hlen]; omega) (by rw [hlen]; omega)
  have h0 := hk 0 (by omega)
  rw [Nat.add_zero] at h0
  simp only [readWordAt]
  rw [h0, hk 1 (by omega), hk 2 (by omega), hk 3 (by omega), hk 4 (by omega),
      hk 5 (by omega), hk 6 (by omega), hk 7 (by omega)]
  simp only [encodeWord, List.getD_cons_zero, List.getD_cons_succ]
  have : v % wordMod < wordMod := Nat.mod_lt _ (by unfold wordMod; omega)
  unfold wordMod at this ⊢
  omega

theorem readWordAt_patchWord_other (code : List Nat) (off1 off2 v : Nat)
    (h : off1 + 8 ≤ off2 ∨ off2 + 8 ≤ off1) :
    readWordAt (patchWord code off2 v) off1 = readWordAt code off1 := by
  have hi : ∀ i, off1 ≤ i → i < off1 + 8 →
      byteAt (patchWord code off2 v) i = byteAt code i := by
    intro i h1 h2
    exact byteAt_patchBytes_outside _ code off2 i (by simp [encodeWord]; omega)
  simp only [readWordAt]
  rw [hi off1 (by omega) (by omega), hi (off1 + 1) (by omega) (by omega),
      hi (off1 + 2) (by omega) (by omega), hi (off1 + 3) (by omega) (by omega),
      hi (off1 + 4) (by omega) (by omega), hi (off1 + 5) (by omega) (by omega),
      hi (off1 + 6) (by omega) (by omega), hi (off1 + 7) (by omega) (by omega)]

/-- The code a fully resolvable patch drain produces: each entry's
placeholder overwritten with its callee's registered start offset. -/
def applyPatches (functions : List (String × Nat)) : List Nat → List PatchCall → List Nat
  | code, [] => code
  | code, p :: ps =>
    applyPatches functions
      (patchWord code p.offset ((funcStartLookup functions p.funcName).getD 0)) ps

theorem applyPatches_length (functions : List (String × Nat)) (ps : List PatchCall) :
    ∀ code, (applyPatches functions code ps).length = code.length := by
  induction ps with
  | nil => intro code; rfl
  | cons p ps ih =>
    intro code
    simp only [applyPatches]
    rw [ih, patchWord_length]

theorem applyPatches_read_outside (functions : List (String × Nat))
    (ps : List PatchCall) :
    ∀ code off, (∀ q ∈ ps, off + 8 ≤ q.offset ∨ q.offset + 8 ≤ off) →
    readWordAt (applyPatches functions code ps) off = readWordAt code off := by
  induction ps with
  | nil => intro code off _; rfl
  | cons q ps ih =>
    intro code off h
    simp only [applyPatches]
    rw [ih _ off (fun r hr => h r (by simp [hr]))]
    exact readWordAt_patchWord_other _ _ _ _ (h q (by simp))

theorem applyPatches_read (functions : List (String × Nat)) (ps : List PatchCall) :
    ∀ code,
    ps.Pairwise (fun p q => p.offset + 8 ≤ q.offset ∨ q.offset + 8 ≤ p.offset) →
    (∀ p ∈ ps, p.offset + 8 ≤ code.length) →
    ∀ p ∈ ps, readWordAt (applyPatches functions code ps) p.offset
      = (funcStartLookup functions p.funcName).getD 0 % wordMod := by
  induction ps with
  | nil => intro code _ _ p hp; exact absurd hp (by simp)
  | cons q ps ih =>
    intro code hdisj hbound p hp
    rcases List.mem_cons.mp hp with hpq | hptl
    · subst hpq
      simp only [applyPatches]
      rw [applyPatches_read_outside functions ps _ p.offset
            (fun r hr => (List.pairwise_cons.mp hdisj).1 r hr)]
      exact readWordAt_patchWord_self code p.offset _ (hbound p (by simp))
    · simp only [applyPatches]
      refine ih _ (List.pairwise_cons.mp hdisj).2 ?_ p hptl
      intro r hr
      rw [patchWord_length]
      exact hbound r (by simp [hr])

theorem patchCallsLoop_eq_applyPatches :
    ∀ (fuel : Nat) (bc : BytecodeCompiler) (i : Nat),
    (∀ p ∈ bc.patches.drop i, (funcStartLookup bc.functions p.funcName).isSome = true) →
    bc.patches.length - i < fuel →
    patchCallsLoop fuel bc i
      = some { bc with code := applyPatches bc.functions bc.code (bc.patches.drop i) } := by
  intro fuel
  induction fuel with
  | zero => intro bc i _ hfuel; omega
  | succ fuel ih =>
    intro bc i hres hfuel
    simp only [patchCallsLoop]
    by_cases hlt : i < bc.patches.length
    · simp only [if_pos hlt]
      have hdrop : bc.patches.drop i = bc.patches[i] :: bc.patches.drop (i + 1) :=
        List.drop_eq_getElem_cons hlt
      have hgetD : bc.patches.getD i ⟨0, ""⟩ = bc.patches[i] := List.getD_eq_getElem _ _ hlt
      have hmem : bc.patches[i] ∈ bc.patches.drop i := hdrop ▸ List.mem_cons_self _ _
      have hsome := hres _ hmem
      obtain ⟨q, hq⟩ := Option.isSome_iff_exists.mp (by simpa using hsome)
      simp only [funcStartLookup] at hq
      obtain ⟨r, hr, hrq⟩ := Option.map_eq_some'.mp hq
      have hfgs : funcGetStart bc (bc.patches[i]).funcName = (q, bc) := by
        simp [funcGetStart, hr, hrq]
      rw [hgetD, hfgs]
      have hih := ih { bc with code := patchWord bc.code (bc.patches[i]).offset q } (i + 1)
        (by intro p hp
            refine hres p ?_
            rw [hdrop]
            exact List.mem_cons_of_mem _ hp)
        (by simp; omega)
      rw [show patchwC bc (bc.patches[i]).offset q
            = { bc with code := patchWord bc.code (bc.patches[i]).offset q } from rfl]
      rw [hih]
      congr 1
      rw [hdrop]
      simp only [applyPatches]
      congr 2
      simp [funcStartLookup, hr, hrq]
    · simp only [if_neg hlt]
      rw [List.drop_eq_nil_of_le (by omega)]
      rfl

theorem patchCallsLoop_empty (bc : BytecodeCompiler) (hp : bc.patches = []) :
    patchCallsLoop (patchFuel bc) bc 0 = some bc := by
  have h : patchFuel bc = 100 + 1 := by simp [patchFuel, hp]
  rw [h]
  simp [patchCallsLoop, hp]

theorem get?_at_append (pre rest : List Nat) (x : Nat) :
    (pre ++ (x :: rest)).get? pre.length = some x := by
  rw [List.get?_eq_getElem?, List.getElem?_append_right (Nat.le_refl _)]
  simp

/-- The VM's six arithmetic binary operations, indexed by opcode. -/
def binFn : Nat → Nat → Nat → Nat
  | 0 => add64
  | 1 => sub64
  | 2 => mul64
  | 3 => div64
  | 4 => lshift64
  | _ => rshift64

theorem step_LI (s : VMState) (v : Nat)
    (hop : s.code.get? s.pc = some opLI)
    (hv : readWordAt s.code (s.pc + 1) = v) :
    step s = .next ⟨s.code, s.pc + 9, stw s.stack s.sp v, s.sp + 8, s.bp, s.output⟩ := by
  simp only [step, List.get?_eq_getElem?] at hop ⊢
  rw [hop]
  simp [opADD, opSUB, opMUL, opDIV, opLSHIFT, opRSHIFT, opGE, opLE, opNOT,
    opJMP, opBIZ, opBNZ, opLI, hv]

theorem step_binArith (s : VMState) (b : Nat) (hb : b < 6)
    (hop : s.code.get? s.pc = some b) :
    step s = .next ⟨s.code, s.pc + 1,
      stw s.stack (s.sp - 16)
        (binFn b (ldw s.stack (s.sp - 8)) (ldw s.stack (s.sp - 16))),
      s.sp - 8, s.bp, s.output⟩ := by
  simp only [step, List.get?_eq_getElem?] at hop ⊢
  rw [hop]
  interval_cases b <;>
    simp [opADD, opSUB, opMUL, opDIV, opLSHIFT, opRSHIFT, binFn]

theorem step_EXIT (s : VMState) (hop : s.code.get? s.pc = some opEXIT) :
    step s = .done (ldw s.stack (s.sp - 8)) ({ s with pc := s.pc + 1, sp := s.sp - 8 }) := by
  simp only [step, List.get?_eq_getElem?] at hop ⊢
  rw [hop]
  simp [opADD, opSUB, opMUL, opDIV, opLSHIFT, opRSHIFT, opGE, opLE, opNOT,
    opJMP, opBIZ, opBNZ, opLI, opPUSHN, opPOPN, opLDBP, opSTBP, opLDA, opSTA,
    opLDI, opSTI, opPRINT, opFUNCPRO, opRET, opCALL, opNOP, opEXIT]

theorem intToWord_lt (i : Int) : intToWord i < wordMod := by
  have h1 : (0 : Int) ≤ i % (wordMod : Int) :=
    Int.emod_nonneg i (by unfold wordMod; omega)
  have h2 : i % (wordMod : Int) < (wordMod : Int) :=
    Int.emod_lt_of_pos i (by unfold wordMod; omega)
  unfold intToWord
  omega

theorem binOpEval64_lt (op : BinOp) (a b : Nat) : binOpEval64 op a b < wordMod := by
  have hw : (0 : Nat) < wordMod := by unfold wordMod; omega
  cases op <;>
    simp [binOpEval64, add64, sub64, mul64, div64, lshift64, rshift64, gt64, lt64, not64] <;>
    first
      | exact Nat.mod_lt _ hw
      | exact intToWord_lt _
      | (split <;> first
          | exact Nat.mod_lt _ hw
          | exact intToWord_lt _
          | unfold wordMod; omega)

/-! ## Arithmetic lowering agreement (claim C1 machinery) -/

theorem genExpr_arith : ∀ (e : Expr), arithOnly e = true →
    ∀ bc : BytecodeCompiler, genExpr bc e = .ok { bc with code := bc.code ++ arithBytes e }
  | .num s, _, bc => by
    have hlt : strViewToU32 s < wordMod :=
      lt_trans (strViewToU32_lt s) (by unfold wordMod; omega)
    simp [genExpr, arithBytes, writew, writeInstruction, Nat.mod_eq_of_lt hlt,
      show opLI % 256 = opLI from rfl]
  | .binary op l r, he, bc => by
    have he2 : isArithOp op = true ∧ arithOnly l = true ∧ arithOnly r = true := by
      simp [arithOnly] at he
      exact ⟨he.1.1, he.1.2, he.2⟩
    have ihr := genExpr_arith r he2.2.2 bc
    have ihl := genExpr_arith l he2.2.1 { bc with code := bc.code ++ arithBytes r }
    cases op <;> simp [isArithOp] at * <;>
      simp [genExpr, ihr, ihl, arithBytes, writeInstruction, Bind.bind, Except.bind,
        show opADD % 256 = opADD from rfl, show opSUB % 256 = opSUB from rfl,
        show opMUL % 256 = opMUL from rfl, show opDIV % 256 = opDIV from rfl,
        show opLSHIFT % 256 = opLSHIFT from rfl, show opRSHIFT % 256 = opRSHIFT from rfl]

/-- Executing the code an arithmetic-only expression lowers to, placed
anywhere in the image, pushes exactly one word — the expression's
two's-complement evaluation — and touches no stack slot below sp. -/
def ArithExecOk (e : Expr) : Prop :=
  ∀ (code pre post : List Nat), code = pre ++ (arithBytes e ++ post) →
  ∀ (st : Nat → Nat) (sp bp : Nat) (out : String),
  ∃ st2, Reaches ⟨code, pre.length, st, sp, bp, out⟩
           ⟨code, pre.length + (arithBytes e).length, st2, sp + 8, bp, out⟩
    ∧ (∀ i, i < sp / 8 → st2 i = st i)
    ∧ st2 (sp / 8) = specEval64 e

theorem arith_exec_num (s : String) (hfit : litsFit (.num s) = true) :
    ArithExecOk (.num s) := by
  intro code pre post hcode st sp bp out
  have hflt : lexemeVal s < 4294967296 := by simpa [litsFit] using hfit
  have hv : strViewToU32 s = lexemeVal s := by
    rw [strViewToU32_eq, Nat.mod_eq_of_lt hflt]
  have hfetch : code.get? pre.length = some opLI := by
    rw [hcode, show arithBytes (.num s) ++ post
        = opLI :: (encodeWord (strViewToU32 s) ++ post) by simp [arithBytes]]
    exact get?_at_append pre _ opLI
  have hread : readWordAt code (pre.length + 1) = strViewToU32 s := by
    rw [hcode, show pre ++ (arithBytes (.num s) ++ post)
        = (pre ++ [opLI]) ++ (encodeWord (strViewToU32 s) ++ post) by
          simp [arithBytes]]
    have := readWordAt_encode (pre ++ [opLI]) post (strViewToU32 s)
      (lt_trans (strViewToU32_lt s) (by unfold wordMod; omega))
    simpa using this
  refine ⟨stw st sp (strViewToU32 s), ?_, ?_, ?_⟩
  · have hstep := step_LI ⟨code, pre.length, st, sp, bp, out⟩ (strViewToU32 s) hfetch hread
    have : (arithBytes (.num s)).length = 9 := by simp [arithBytes, encodeWord]
    rw [this]
    exact reaches_step hstep
  · intro i hi
    simp only [stw]
    rw [if_neg (by omega)]
  · simp only [stw, if_pos rfl, specEval64, hv]
    simp [Nat.mod_eq_of_lt (show lexemeVal s < wordMod by unfold wordMod; omega)]

theorem arith_exec_binary (op : BinOp) (l r : Expr)
    (ihl : ArithExecOk l) (ihr : ArithExecOk r)
    (opc : Nat) (hopc : opc < 6)
    (hbytes : arithBytes (.binary op l r) = arithBytes r ++ arithBytes l ++ [opc])
    (hfn : binFn opc (specEval64 l) (specEval64 r)
      = binOpEval64 op (specEval64 l) (specEval64 r)) :
    ArithExecOk (.binary op l r) := by
  intro code pre post hcode st sp bp out
  have hcr : code = pre ++ (arithBytes r ++ (arithBytes l ++ ([opc] ++ post))) := by
    rw [hcode, hbytes]; simp
  obtain ⟨st1, hR1, hP1, hV1⟩ :=
    ihr code pre (arithBytes l ++ ([opc] ++ post)) hcr st sp bp out
  have hcl : code = (pre ++ arithBytes r) ++ (arithBytes l ++ ([opc] ++ post)) := by
    rw [hcr]; simp
  obtain ⟨st2, hR2, hP2, hV2⟩ :=
    ihl code (pre ++ arithBytes r) ([opc] ++ post) hcl st1 (sp + 8) bp out
  simp only [List.length_append] at hR2
  have hfetch : code.get? ((pre ++ arithBytes r).length + (arithBytes l).length)
      = some opc := by
    have hsplit : code = ((pre ++ arithBytes r) ++ arithBytes l) ++ (opc :: post) := by
      rw [hcl]; simp
    rw [hsplit, show (pre ++ arithBytes r).length + (arithBytes l).length
        = ((pre ++ arithBytes r) ++ arithBytes l).length by simp [Nat.add_assoc]]
    exact get?_at_append _ _ _
  have hstep := step_binArith
    ⟨code, (pre ++ arithBytes r).length + (arithBytes l).length, st2, sp + 8 + 8, bp, out⟩
    opc hopc hfetch
  simp only [List.length_append] at hstep
  have hsp8 : (sp + 8) / 8 = sp / 8 + 1 := by omega
  have ha : ldw st2 (sp + 8 + 8 - 8) = specEval64 l := by
    simp only [ldw]
    rw [show (sp + 8 + 8 - 8) / 8 = (sp + 8) / 8 by omega]
    exact hV2
  have hb : ldw st2 (sp + 8 + 8 - 16) = specEval64 r := by
    simp only [ldw]
    rw [show (sp + 8 + 8 - 16) / 8 = sp / 8 by omega]
    rw [hP2 (sp / 8) (by omega)]
    exact hV1
  refine ⟨stw st2 (sp + 8 + 8 - 16)
    (binFn opc (ldw st2 (sp + 8 + 8 - 8)) (ldw st2 (sp + 8 + 8 - 16))), ?_, ?_, ?_⟩
  · have hR3 := reaches_step hstep
    have heq : (⟨code, pre.length + (arithBytes r).length + (arithBytes l).length + 1,
        stw st2 (sp + 8 + 8 - 16)
          (binFn opc (ldw st2 (sp + 8 + 8 - 8)) (ldw st2 (sp + 8 + 8 - 16))),
        sp + 8 + 8 - 8, bp, out⟩ : VMState)
        = ⟨code, pre.length + (arithBytes (.binary op l r)).length,
           stw st2 (sp + 8 + 8 - 16)
             (binFn opc (ldw st2 (sp + 8 + 8 - 8)) (ldw st2 (sp + 8 + 8 - 16))),
           sp + 8, bp, out⟩ := by
      simp [hbytes]
      omega
    rw [heq] at hR3
    exact reaches_trans hR1 (reaches_trans hR2 hR3)
  · intro i hi
    simp only [stw]
    rw [if_neg (by omega)]
    rw [hP2 i (by omega)]
    exact hP1 i hi
  · simp only [stw, show (sp + 8 + 8 - 16) / 8 = sp / 8 by omega, if_pos rfl]
    rw [ha, hb, hfn]
    rw [Nat.mod_eq_of_lt (binOpEval64_lt op _ _)]
    rfl

theorem arith_exec : ∀ (e : Expr), arithOnly e = true → litsFit e = true → ArithExecOk e
  | .num s, _, hfit => arith_exec_num s hfit
  | .binary .plus l r, he, hfit =>
    arith_exec_binary .plus l r
      (arith_exec l (by simp [arithOnly] at he; exact he.1.2)
        (by simp [litsFit] at hfit; exact hfit.1))
      (arith_exec r (by simp [arithOnly] at he; exact he.2)
        (by simp [litsFit] at hfit; exact hfit.2))
      0 (by omega)
      (by simp [arithBytes, opADD, opSUB, opMUL, opDIV, opLSHIFT, opRSHIFT]) rfl
  | .binary .minus l r, he, hfit =>
    arith_exec_binary .minus l r
      (arith_exec l (by simp [arithOnly] at he; exact he.1.2)
        (by simp [litsFit] at hfit; exact hfit.1))
      (arith_exec r (by simp [arithOnly] at he; exact he.2)
        (by simp [litsFit] at hfit; exact hfit.2))
      1 (by omega)
      (by simp [arithBytes, opADD, opSUB, opMUL, opDIV, opLSHIFT, opRSHIFT]) rfl
  | .binary .star l r, he, hfit =>
    arith_exec_binary .star l r
      (arith_exec l (by simp [arithOnly] at he; exact he.1.2)
        (by simp [litsFit] at hfit; exact hfit.1))
      (arith_exec r (by simp [arithOnly] at he; exact he.2)
        (by simp [litsFit] at hfit; exact hfit.2))
      2 (by omega)
      (by simp [arithBytes, opADD, opSUB, opMUL, opDIV, opLSHIFT, opRSHIFT]) rfl
  | .binary .slash l r, he, hfit =>
    arith_exec_binary .slash l r
      (arith_exec l (by simp [arithOnly] at he; exact he.1.2)
        (by simp [litsFit] at hfit; exact hfit.1))
      (arith_exec r (by simp [arithOnly] at he; exact he.2)
        (by simp [litsFit] at hfit; exact hfit.2))
      3 (by omega)
      (by simp [arithBytes, opADD, opSUB, opMUL, opDIV, opLSHIFT, opRSHIFT]) rfl
  | .binary .lshiftOp l r, he, hfit =>
    arith_exec_binary .lshiftOp l r
      (arith_exec l (by simp [arithOnly] at he; exact he.1.2)
        (by simp [litsFit] at hfit; exact hfit.1))
      (arith_exec r (by simp [arithOnly] at he; exact he.2)
        (by simp [litsFit] at hfit; exact hfit.2))
      4 (by omega)
      (by simp [arithBytes, opADD, opSUB, opMUL, opDIV, opLSHIFT, opRSHIFT]) rfl
  | .binary .rshiftOp l r, he, hfit =>
    arith_exec_binary .rshiftOp l r
      (arith_exec l (by simp [arithOnly] at he; exact he.1.2)
        (by simp [litsFit] at hfit; exact hfit.1))
      (arith_exec r (by simp [arithOnly] at he; exact he.2)
        (by simp [litsFit] at hfit; exact hfit.2))
      5 (by omega)
      (by simp [arithBytes, opADD, opSUB, opMUL, opDIV, opLSHIFT, opRSHIFT]) rfl
  | .binary .eqOp l r, he, _ => absurd he (by simp [arithOnly, isArithOp])
  | .binary .neqOp l r, he, _ => absurd he (by simp [arithOnly, isArithOp])
  | .binary .greater l r, he, _ => absurd he (by simp [arithOnly, isArithOp])
  | .binary .less l r, he, _ => absurd he (by simp [arithOnly, isArithOp])
  | .ident n, he, _ => absurd he (by simp [arithOnly])
  | .call a b c d f g, he, _ => absurd he (by simp [arithOnly])

/-! ## Claim theorems -/

/-- C1 (amended): for every AST expression built only from integer
literals and the binary operators + - * / << >>, whose literal lexemes
denote values below 2^32 (the lowering parses literals as u32, see C10),
lowering the expression through the code generator's call-site entry
point and running the image in the VM yields exactly the two's-complement
signed 64-bit evaluation of the expression — right operand lowered
first, then left, so SUB/DIV/shifts compute left op right (this order is
what `specEval64` evaluates and `arith_exec` verifies against the byte
stream). -/
theorem claim_c1_arith_roundtrip (e : Expr)
    (he : arithOnly e = true) (hfit : litsFit e = true) :
    ∃ (bc : BytecodeCompiler) (fuel : Nat) (st : VMState),
      astCallToBytecode [] ⟨[], none⟩ (.call "eval" s32 [e] true false none) = .ok (some bc) ∧
      bc.code = arithBytes e ++ [opEXIT] ∧
      run fuel (initState bc.code) = some (specEval64 e, st) := by
  have hginit := genExpr_arith e he (bytecodeCompilerInit [])
  have hlow : astCallToBytecode [] ⟨[], none⟩ (.call "eval" s32 [e] true false none)
      = .ok (some { bytecodeCompilerInit [] with code := arithBytes e ++ [opEXIT] }) := by
    simp only [astCallToBytecode, hginit]
    simp only [bytecodeCompilerInit] at *
    simp [genFuncsExceptMain, writeInstruction, show opEXIT % 256 = opEXIT from rfl,
      Bind.bind, Except.bind]
    exact patchCallsLoop_empty _ rfl
  have hexec : ∃ (g : Nat) (st : VMState),
      run g (initState (arithBytes e ++ [opEXIT])) = some (specEval64 e, st) := by
    have hcode : arithBytes e ++ [opEXIT]
        = [] ++ (arithBytes e ++ [opEXIT]) := by simp
    obtain ⟨st2, hR, hP, hV⟩ := arith_exec e he hfit
      (arithBytes e ++ [opEXIT]) [] [opEXIT] hcode (fun _ => 0) 0 0 ""
    simp only [List.length_nil, Nat.zero_add] at hR
    have hfetch : (arithBytes e ++ [opEXIT]).get? (arithBytes e).length = some opEXIT :=
      get?_at_append (arithBytes e) [] opEXIT
    have hstep := step_EXIT ⟨arithBytes e ++ [opEXIT], (arithBytes e).length, st2, 8, 0, ""⟩
      hfetch
    have hrun1 : run 1 ⟨arithBytes e ++ [opEXIT], (arithBytes e).length, st2, 8, 0, ""⟩
        = some (specEval64 e,
            ⟨arithBytes e ++ [opEXIT], (arithBytes e).length + 1, st2, 0, 0, ""⟩) := by
      simp only [run, hstep]
      have hl : ldw st2 0 = specEval64 e := by
        simp only [ldw]
        simpa using hV
      simp [hl]
    obtain ⟨g, hg⟩ := run_of_reaches hR hrun1
    exact ⟨g, _, hg⟩
  obtain ⟨g, st, hg⟩ := hexec
  exact ⟨{ bytecodeCompilerInit [] with code := arithBytes e ++ [opEXIT] }, g, st, hlow, rfl, hg⟩

/-- Witness for C1: the expression 1 + 2 * 3 satisfies the hypotheses,
and the round trip yields 7. -/
theorem claim_c1_arith_roundtrip_witness :
    arithOnly exprOnePlusTwoTimesThree = true ∧
    litsFit exprOnePlusTwoTimesThree = true ∧
    specEval64 exprOnePlusTwoTimesThree = 7 ∧
    ∃ (bc : BytecodeCompiler) (fuel : Nat) (st : VMState),
      astCallToBytecode [] ⟨[], none⟩
          (.call "eval" s32 [exprOnePlusTwoTimesThree] true false none) = .ok (some bc) ∧
      run fuel (initState bc.code) = some (7, st) := by
  refine ⟨by decide, by decide, by decide, ?_⟩
  obtain ⟨bc, fuel, st, h1, _, h3⟩ :=
    claim_c1_arith_roundtrip exprOnePlusTwoTimesThree (by decide) (by decide)
  rw [show specEval64 exprOnePlusTwoTimesThree = 7 by decide] at h3
  exact ⟨bc, fuel, st, h1, h3⟩

/-- Counterexample to C1 as stated: the literal 4294967296 = 2^32 is
lowered through `str_view_to_u32`, so the image computes 0, not the
two's-complement 64-bit evaluation 4294967296 of the expression. -/
theorem claim_c1_literal_counterexample :
    (match astCallToBytecode [] ⟨[], none⟩
        (.call "eval" s32 [.num "4294967296"] true false none) with
     | .ok (some bc) => (run 3 (initState bc.code)).map Prod.fst
     | _ => none) = some 0
    ∧ specEval64 (.num "4294967296") = 4294967296
    ∧ (0 : Nat) ≠ 4294967296 := ⟨rfl, by decide, by decide⟩

/-- C2: whenever the compile-time driver's fixed-point loop completes
(returns a final AST), no call node anywhere in that AST has
`is_comptime` true and `is_resolved` false; and each step of the loop
takes the first collected unresolved comptime call and, with `w` the
64-bit word the VM run of its synthesized bytecode returned, installs
`is_resolved := true` and `resolved_node :=` a numeric literal whose
lexeme is the decimal rendering of `w`. -/
theorem claim_c2_driver_fixed_point (symt : List Symbol) (vmFuel fuel : Nat)
    (root rootFinal : AstRoot)
    (h : driver symt vmFuel fuel root = some rootFinal) :
    (∀ c ∈ allCallsRoot rootFinal, isUnresolvedComptime c = false) ∧
    (∀ (rootMid : AstRoot) (c : Expr) (w : Nat),
       (comptimeCalls rootMid).head? = some c →
       evalCallWord vmFuel symt rootMid c = some w →
       ∃ identifier ty args resolvedNode,
         c = .call identifier ty args true false resolvedNode ∧
         resolveCallNode c w
           = .call identifier ty args true true (some (.num (decRenderWord w)))) := by
  constructor
  · induction fuel generalizing root with
    | zero => exact absurd h (by simp [driver])
    | succ fuel ih =>
      simp only [driver] at h
      cases hh : (comptimeCalls root).head? with
      | none =>
        rw [hh] at h
        simp at h
        subst h
        intro c hc
        by_contra hne
        have hcmem : c ∈ comptimeCalls root := by
          simp [comptimeCalls, List.mem_filter, hc]
          simpa using hne
        rw [List.head?_eq_none_iff] at hh
        simp [hh] at hcmem
      | some c =>
        rw [hh] at h
        dsimp only at h
        cases he : evalCallWord vmFuel symt root c with
        | none => rw [he] at h; exact absurd h (by simp)
        | some w =>
          rw [he] at h
          exact ih _ h
  · intro rootMid c w hc hw
    have hcmem : c ∈ comptimeCalls rootMid := List.mem_of_mem_head? hc
    simp only [comptimeCalls, List.mem_filter] at hcmem
    obtain ⟨_, hunres⟩ := hcmem
    cases c with
    | num l => simp [isUnresolvedComptime] at hunres
    | ident n => simp [isUnresolvedComptime] at hunres
    | binary op l r => simp [isUnresolvedComptime] at hunres
    | call identifier ty args isCt isRes resolvedNode =>
      simp only [isUnresolvedComptime, Bool.and_eq_true, Bool.not_eq_true] at hunres
      obtain ⟨hct, hres2⟩ := hunres
      have hres3 : isRes = false := by simpa using hres2
      subst hct hres3
      exact ⟨identifier, ty, args, resolvedNode, rfl, by simp [resolveCallNode]⟩

/-- Witness for C2: on a program whose main returns `@eval(5)`, the
driver reaches the fixed point, producing the AST whose call is resolved
to the literal "5", and no unresolved comptime call remains. -/
theorem claim_c2_driver_fixed_point_witness :
    driver [mainSymbol] 50 3 comptimeRoot = some comptimeRootResolved ∧
    (∀ c ∈ allCallsRoot comptimeRootResolved, isUnresolvedComptime c = false) := by
  have h : driver [mainSymbol] 50 3 comptimeRoot = some comptimeRootResolved := rfl
  exact ⟨h, (claim_c2_driver_fixed_point [mainSymbol] 50 3
    comptimeRoot comptimeRootResolved h).1⟩

/-- C3 (amended): for a matched CALL/RET pair — CALL pops the callee
target, pushes the return pc (the address of the instruction after CALL)
and jumps; the callee body preserves bp (set by FUNCPRO to the byte
offset just above the saved words) and the two saved words — executing
RET restores bp exactly to its pre-CALL value, sets pc to the
instruction immediately after the CALL opcode (pre-CALL pc + 1), and
sets sp to the pre-CALL sp minus one word (the callee-address word CALL
consumed); sp and pc are therefore not literally the pre-CALL values. -/
theorem claim_c3_call_ret_frame (s t : VMState)
    (hCall : s.code.get? s.pc = some opCALL)
    (hsp : 8 ≤ s.sp)
    (hRet : t.code.get? t.pc = some opRET)
    (hbp : t.bp = s.sp + 8)
    (hSavedBp : ldw t.stack s.sp = s.bp)
    (hSavedPc : ldw t.stack (s.sp - 8) = s.pc + 1) :
    step s = .next ({ s with pc := ldw s.stack (s.sp - 8), sp := s.sp, stack := stw s.stack (s.sp - 8) (s.pc + 1) }) ∧
    step t = .next ({ t with pc := s.pc + 1, sp := s.sp - 8, bp := s.bp }) := by
  constructor
  · simp only [step, List.get?_eq_getElem?] at hCall ⊢
    rw [hCall]
    simp [opADD, opSUB, opMUL, opDIV, opLSHIFT, opRSHIFT, opGE, opLE,
      opNOT, opJMP, opBIZ, opBNZ, opLI, opPUSHN, opPOPN, opLDBP, opSTBP, opLDA,
      opSTA, opLDI, opSTI, opPRINT, opFUNCPRO, opRET, opCALL]
  · have h1 : t.bp - 8 = s.sp := by omega
    have h2 : t.bp - 16 = s.sp - 8 := by omega
    simp only [step, List.get?_eq_getElem?] at hRet ⊢
    rw [hRet]
    simp [opADD, opSUB, opMUL, opDIV, opLSHIFT, opRSHIFT, opGE, opLE,
      opNOT, opJMP, opBIZ, opBNZ, opLI, opPUSHN, opPOPN, opLDBP, opSTBP, opLDA,
      opSTA, opLDI, opSTI, opPRINT, opFUNCPRO, opRET, opCALL, h1, h2, hSavedBp, hSavedPc, hbp]

/-- Witness for C3: the concrete image LI 11; CALL; EXIT; FUNCPRO; RET,
at the states just before its CALL and just before its RET. -/
theorem claim_c3_call_ret_frame_witness :
    step callRetBefore = .next ({ callRetBefore with pc := 11, sp := 8, stack := stw callRetBefore.stack 0 10 }) ∧
    step callRetAtRet = .next ({ callRetAtRet with pc := 10, sp := 0, bp := 0 }) :=
  claim_c3_call_ret_frame callRetBefore callRetAtRet rfl (by decide) rfl rfl rfl rfl

/-- Counterexample to C3 as stated: in the image LI 11; CALL; EXIT;
FUNCPRO; RET, the registers immediately before CALL are
(pc, sp, bp) = (9, 8, 0), but after the matching RET they are
(10, 0, 0): bp is restored, while sp is one word lower (the callee
target was consumed) and pc points after the CALL opcode. -/
theorem claim_c3_sp_counterexample :
    (nsteps 1 (initState callRetCode)).map (fun s => (s.pc, s.sp, s.bp)) = some (9, 8, 0)
    ∧ (nsteps 4 (initState callRetCode)).map (fun s => (s.pc, s.sp, s.bp)) = some (10, 0, 0)
    ∧ ((10, 0, 0) : Nat × Nat × Nat) ≠ (9, 8, 0) := ⟨rfl, rfl, by decide⟩

/-- C4 (code bug): lowering `while 1 begin break while 1 begin break end
end` — nested loops, the outer break recorded before the inner loop —
succeeds without error, but the patch loop at the inner loop's exit reads
`break_offsets[break_i_prev + i]` with `i` itself starting at
`break_i_prev`, i.e. index 2 instead of 1.  In the resulting code the
outer break's placeholder (the word at offset 13) is patched to the outer
post-loop offset 64, but the inner break's placeholder at offset 35 still
holds the -1 sentinel (2^64 - 1) instead of the inner post-loop offset
54, and the stray patch wrote 54 over the first 8 code bytes (offset 0,
which the uninitialized `break_offsets[2]` supplied). -/
theorem claim_c4_break_patch_bug :
    (match genStmt (bytecodeCompilerInit []) nestedBreakProg with
     | .ok bc => some (readWordAt bc.code 35, readWordAt bc.code 13, readWordAt bc.code 0)
     | .error _ => none) = some (wordMod - 1, 64, 54)
    ∧ wordMod - 1 ≠ 54 := ⟨rfl, by decide⟩

/-- C5 (amended): executing `PRINT n` pops exactly n words and writes
them to stdout in the order they were pushed, but each word — the last
included — is followed by one space before the terminating newline, so
the output of printing the single word 7 is "7 \n", not the exact line
"7". -/
theorem claim_c5_print_semantics (s : VMState) (n : Nat) (ws : List Nat)
    (hop : s.code.get? s.pc = some opPRINT)
    (hn : byteAt s.code (s.pc + 1) = n)
    (hlen : ws.length = n)
    (hws : ∀ i, i < n → ldw s.stack (s.sp - 8 * (n - i)) = ws.getD i 0) :
    step s = .next ({ s with pc := s.pc + 2, sp := s.sp - 8 * n, output := s.output ++ ((ws.foldl (fun acc w => acc ++ toString (wordToInt w) ++ " ") "") ++ "\n") }) := by
  have hargs : printArgs s n = ws := by
    apply List.ext_getElem
    · simp [printArgs, hlen]
    · intro i h1 h2
      have h3 : i < n := by simpa [printArgs] using h1
      have h4 := hws i h3
      simp only [printArgs, List.getElem_map, List.getElem_range]
      rw [List.getD_eq_getElem ws 0 h2] at h4
      exact h4
  simp only [step, List.get?_eq_getElem?] at hop ⊢
  rw [hop]
  simp [opADD, opSUB, opMUL, opDIV, opLSHIFT, opRSHIFT, opGE, opLE,
    opNOT, opJMP, opBIZ, opBNZ, opLI, opPUSHN, opPOPN, opLDBP, opSTBP, opLDA,
    opSTA, opLDI, opSTI, opPRINT, hn, hargs, renderPrint]

/-- Witness for C5: executing PRINT 1 with the word 7 on top appends
exactly "7 \n" to the output and pops one word. -/
theorem claim_c5_print_semantics_witness :
    step printOneState = .next ({ printOneState with pc := 2, sp := 0, output := "7 \n" }) :=
  claim_c5_print_semantics printOneState 1 [7] rfl rfl rfl
    (fun i hi => by interval_cases i; rfl)

/-- Counterexample to C5 as stated: running the bytecode lowered from
`func main(): s32 begin print 1 + 2 * 3 return 0 end`, the machine state
after the PRINT instruction (8 steps: PUSHN, FUNCPRO, LI, LI, MUL, LI,
ADD, PRINT) has written "7 \n" — with a trailing space — to stdout,
which is not exactly the output line "7". -/
theorem claim_c5_trailing_space_counterexample :
    (match astRootToBytecode [mainSymbol] printRoot with
     | .ok (some bc) => (nsteps 8 (initState bc.code)).map VMState.output
     | _ => none) = some "7 \n"
    ∧ "7 \n" ≠ "7\n" := ⟨rfl, by decide⟩

/-- C6 (amended): when every recorded patch entry names a registered
(emitted) function, and the entries' 8-byte placeholders are pairwise
disjoint and inside the code, the patch drain terminates and overwrites
every placeholder with the callee's registered start offset — no zero
placeholder remains.  A patch entry whose callee was never emitted is,
however, not a fatal error: `func_get_start` silently rewrites the
placeholder with 0 and appends a fresh patch entry, so the drain runs
away (see the counterexample). -/
theorem claim_c6_patch_completeness (bc : BytecodeCompiler)
    (hres : ∀ p ∈ bc.patches, (funcStartLookup bc.functions p.funcName).isSome = true)
    (hdisj : bc.patches.Pairwise fun p q => p.offset + 8 ≤ q.offset ∨ q.offset + 8 ≤ p.offset)
    (hbound : ∀ p ∈ bc.patches, p.offset + 8 ≤ bc.code.length) :
    ∃ bc2, patchCallsLoop (patchFuel bc) bc 0 = some bc2 ∧
      ∀ p ∈ bc.patches, readWordAt bc2.code p.offset
        = (funcStartLookup bc.functions p.funcName).getD 0 % wordMod := by
  refine ⟨_, patchCallsLoop_eq_applyPatches (patchFuel bc) bc 0
    (by simpa using hres) (by simp [patchFuel]), ?_⟩
  intro p hp
  simp only [List.drop_zero]
  exact applyPatches_read bc.functions bc.patches bc.code hdisj hbound p hp

/-- Witness for C6: one forward patch at offset 2 naming the registered
function g (start 9) over a 20-byte buffer is drained and overwritten
with 9. -/
theorem claim_c6_patch_completeness_witness :
    ∃ bc2, patchCallsLoop (patchFuel onePatchBc) onePatchBc 0 = some bc2 ∧
      ∀ p ∈ onePatchBc.patches, readWordAt bc2.code p.offset
        = (funcStartLookup onePatchBc.functions p.funcName).getD 0 % wordMod :=
  claim_c6_patch_completeness onePatchBc (by decide) (by decide) (by decide)

set_option maxRecDepth 40000 in
/-- Counterexample to C6's fatal-error clause: lowering a program whose
main calls the comptime function f — which `ast_func_to_bytecode` skips,
so f is never emitted and its patch entry can never resolve — does not
produce a fatal error; the drain loop keeps appending fresh patch
entries and runs away (modelled as the fuel-bounded loop returning
none). -/
theorem claim_c6_unresolved_runaway_counterexample :
    astRootToBytecode [mainSymbol, comptimeFSymbol] ghostCallRoot = .ok none ∧
    ∀ err : GenErr, astRootToBytecode [mainSymbol, comptimeFSymbol] ghostCallRoot ≠ .error err := by
  constructor
  · rfl
  · intro err h
    rw [show astRootToBytecode [mainSymbol, comptimeFSymbol] ghostCallRoot
        = .ok none from rfl] at h
    exact absurd h (by simp)

/-- C7 (code bug): lowering a break or a continue with an empty
loop-context stack (loop_i = 0, no enclosing loop) is not reported as a
compile error: break emits LI of the -1 placeholder (2^64 - 1, never to
be patched) followed by JMP, and continue emits LI of the uninitialized
`loop_offsets[0]` slot followed by JMP. -/
theorem claim_c7_break_outside_loop_bug :
    (match genStmt (bytecodeCompilerInit []) Stmt.breakS with
     | .ok bc => some (bc.code, bc.breakI)
     | .error _ => none) = some (opLI :: encodeWord (wordMod - 1) ++ [opJMP], 1)
    ∧ (match genStmt (bytecodeCompilerInit []) Stmt.continueS with
       | .ok bc => some bc.code
       | .error _ => none) = some (opLI :: encodeWord 0 ++ [opJMP]) := ⟨by decide, by decide⟩

/-- C8 (amended): fetching an unknown opcode (any byte at or above 27)
terminates the fetch-decode-execute loop after printing
"Unknown opcode N", and `run` then returns the word on top of the stack
exactly as a normal EXIT would — no compiler error is raised and nothing
is attributed to the originating call site. -/
theorem claim_c8_unknown_opcode (s : VMState) (b : Nat)
    (hop : s.code.get? s.pc = some b) (hb : 27 ≤ b) :
    step s = .done (ldw s.stack (s.sp - 8)) ({ s with pc := s.pc + 1, sp := s.sp - 8, output := s.output ++ "Unknown opcode " ++ toString b ++ "\n" }) ∧
    run 1 s = some (ldw s.stack (s.sp - 8), { s with pc := s.pc + 1, sp := s.sp - 8, output := s.output ++ "Unknown opcode " ++ toString b ++ "\n" }) := by
  have h : step s = .done (ldw s.stack (s.sp - 8)) ({ s with pc := s.pc + 1, sp := s.sp - 8, output := s.output ++ "Unknown opcode " ++ toString b ++ "\n" }) := by
    simp only [step, List.get?_eq_getElem?] at hop ⊢
    rw [hop]
    simp only [opADD, opSUB, opMUL, opDIV, opLSHIFT, opRSHIFT, opGE, opLE,
      opNOT, opJMP, opBIZ, opBNZ, opLI, opPUSHN, opPOPN, opLDBP, opSTBP, opLDA,
      opSTA, opLDI, opSTI, opPRINT, opFUNCPRO, opRET, opCALL, opNOP, opEXIT]
    iterate 27 rw [if_neg (show ¬(b = _) by omega)]
  exact ⟨h, by simp [run, h]⟩

/-- Witness for C8: fetching opcode 255 with the word 5 on top returns 5
as the result, after printing the unknown-opcode message. -/
theorem claim_c8_unknown_opcode_witness :
    step unknownOpState = .done 5 ({ unknownOpState with pc := 1, sp := 0, output := "Unknown opcode 255\n" }) ∧
    run 1 unknownOpState = some (5, { unknownOpState with pc := 1, sp := 0, output := "Unknown opcode 255\n" }) :=
  claim_c8_unknown_opcode unknownOpState 255 rfl (by decide)

/-- Counterexample to C8 as stated: the image LI 42; 0xFF hits the
unknown opcode 255, and `run` returns the word 42 — exactly the result
the image LI 42; EXIT returns — rather than aborting the comptime
evaluation with a compiler error; only the stdout text differs. -/
theorem claim_c8_normal_result_counterexample :
    (run 5 (initState unknownOpcodeCode)).map (fun r => (r.1, r.2.output))
      = some (42, "Unknown opcode 255\n")
    ∧ (run 5 (initState exitCode)).map Prod.fst = some 42 := ⟨rfl, rfl⟩

/-- C9: lowering a call node with `is_resolved` true (and a resolved
node present) emits exactly the bytecode of lowering its `resolved_node`
directly, whatever the compiler state. -/
theorem claim_c9_resolved_call_idempotent (bc : BytecodeCompiler) (identifier : String)
    (ty : TypeInfo) (args : List Expr) (isComptime : Bool) (r : Expr) :
    genExpr bc (.call identifier ty args isComptime true (some r)) = genExpr bc r := by
  simp [genExpr]

/-- C10: for a numeric literal expression, lowering emits LI whose
immediate word is the lexeme parsed as an unsigned 32-bit integer —
the lexeme's value reduced modulo 2^32, zero-extended into the word —
so a lexeme denoting a value of 2^32 or more is not represented
exactly.  (`str_view_to_u32` is absent from the snapshot and is
modelled from the spec as a u32 decimal parse with wraparound.) -/
theorem claim_c10_literal_u32_truncation (bc : BytecodeCompiler) (lexeme : String) :
    ∃ bc2, genExpr bc (.num lexeme) = .ok bc2 ∧
      bc2.code = bc.code ++ (opLI :: encodeWord (lexemeVal lexeme % 4294967296)) ∧
      readWordAt bc2.code (bc.code.length + 1) = lexemeVal lexeme % 4294967296 ∧
      (4294967296 ≤ lexemeVal lexeme →
        readWordAt bc2.code (bc.code.length + 1) ≠ lexemeVal lexeme) := by
  have hmod : strViewToU32 lexeme % wordMod = strViewToU32 lexeme :=
    Nat.mod_eq_of_lt (lt_trans (strViewToU32_lt lexeme) (by unfold wordMod; omega))
  have hcode : (writew (writeInstruction bc opLI) (strViewToU32 lexeme)).code
      = (bc.code ++ [opLI]) ++ (encodeWord (lexemeVal lexeme % 4294967296) ++ []) := by
    simp only [writew, writeInstruction, strViewToU32_eq]
    rw [Nat.mod_eq_of_lt (show lexemeVal lexeme % 4294967296 < wordMod by
      unfold wordMod; omega)]
    simp [opLI]
  refine ⟨writew (writeInstruction bc opLI) (strViewToU32 lexeme), by simp [genExpr], ?_, ?_, ?_⟩
  · rw [hcode]; simp
  · rw [hcode]
    have := readWordAt_encode (bc.code ++ [opLI]) []
      (lexemeVal lexeme % 4294967296) (by unfold wordMod; omega)
    simpa using this
  · intro hge
    rw [hcode]
    have := readWordAt_encode (bc.code ++ [opLI]) []
      (lexemeVal lexeme % 4294967296) (by unfold wordMod; omega)
    have h2 : readWordAt ((bc.code ++ [opLI]) ++ (encodeWord (lexemeVal lexeme % 4294967296) ++ [])) (bc.code.length + 1) = lexemeVal lexeme % 4294967296 := by
      simpa using this
    rw [h2]
    omega

/-- Witness for C10: the lexeme "4294967296" (= 2^32) denotes a value of
2^32 or more, and the emitted immediate differs from it (it is 0). -/
theorem claim_c10_literal_u32_truncation_witness :
    4294967296 ≤ lexemeVal "4294967296" ∧
    ∃ bc2, genExpr (bytecodeCompilerInit []) (.num "4294967296") = .ok bc2 ∧
      readWordAt bc2.code 1 ≠ lexemeVal "4294967296" := by
  refine ⟨by decide, ?_⟩
  obtain ⟨bc2, h1, _, _, h4⟩ := claim_c10_literal_u32_truncation (bytecodeCompilerInit []) "4294967296"
  exact ⟨bc2, h1, by simpa using h4 (by decide)⟩

end Metagen
